import Mathlib

/-!
# The incremental SAT driver `inc_sat_solver`

A shallow embedding of `src/sat/sat_solver/inc_sat_solver.cpp`.

The driver owns two growing vectors (`m_fmls`, `m_asmsf`), three trail stacks
(`m_fmls_lim`, `m_asms_lim`, `m_fmls_head_lim`), a head index, a scope counter and a
few per-call buffers.  The classes it delegates to (the SAT core, the atom map, the
bit-blast rewriter, the preprocessing tactic and `goal2sat`) are not part of the
sources: their state is one abstract component `m_ext : σ` of the driver and their
operations are the fields of a record `externals σ`, so that the general statements
hold whatever these collaborators do.  The evaluations at concrete inputs run the
driver over the reference collaborators `toy`.
-/

namespace IncSat

/-! ## Terms, literals, goals, models -/

/-- Modelled from the spec: the three verdicts `true`, `false`, `undef` of the SAT core
and of the driver (`lbool`, declared outside the sources). -/
inductive lbool
  | l_false
  | l_undef
  | l_true
  deriving DecidableEq, Repr

/-- Negation on verdicts, `~r` in `value_at`. -/
def lbool.neg : lbool → lbool
  | lbool.l_false => lbool.l_true
  | lbool.l_undef => lbool.l_undef
  | lbool.l_true => lbool.l_false

/-- Modelled from the spec: declarations of the term manager (outside the sources):
user symbols and the few built-in ones the driver itself creates terms of. -/
inductive func_decl
  | user (id : Nat)
  | true_decl
  | false_decl
  | not_decl
  | or_decl
  | implies_decl
  deriving DecidableEq, Repr

/-- Modelled from the spec: terms of the term manager (outside the sources), as far as
the driver looks into them: it builds
implications (`m.mk_implies`), the constants `m.mk_true()` and `m.mk_false()`, and it
asks for the number of arguments and the declaration of an application. -/
inductive expr
  | const (id : Nat)
  | mk_true
  | mk_false
  | not (e : expr)
  | or (a b : expr)
  | implies (a t : expr)
  deriving DecidableEq, Repr

/-- Number of arguments, `to_app(n)->get_num_args()`. -/
def expr.get_num_args : expr → Nat
  | expr.const _ => 0
  | expr.mk_true => 0
  | expr.mk_false => 0
  | expr.not _ => 1
  | expr.or _ _ => 2
  | expr.implies _ _ => 2

/-- Head symbol, `to_app(n)->get_decl()`. -/
def expr.get_decl : expr → func_decl
  | expr.const id => func_decl.user id
  | expr.mk_true => func_decl.true_decl
  | expr.mk_false => func_decl.false_decl
  | expr.not _ => func_decl.not_decl
  | expr.or _ _ => func_decl.or_decl
  | expr.implies _ _ => func_decl.implies_decl

/-- Modelled from the spec: a SAT literal (`sat::literal`, declared outside the
sources), given by its index `m_val`; variable and sign are the upper bits and the
lowest bit of the index. -/
structure literal where
  m_val : Nat
  deriving DecidableEq, Repr

/-- The index of a literal, `literal::index()`. -/
def literal.index (l : literal) : Nat := l.m_val

/-- The variable of a literal, `literal::var()`. -/
def literal.var (l : literal) : Nat := l.m_val / 2

/-- The sign of a literal, `literal::sign()`. -/
def literal.sign (l : literal) : Bool := l.m_val % 2 == 1

/-- Weights are doubles in the source; the driver only copies them, so any carrier
with equality serves. -/
abbrev weight := Rat

/-- A propositional assignment, `sat::model`: one verdict per variable. -/
abbrev sat_model := List lbool

/-- Modelled from the spec: value of a variable in an assignment,
`value_at(bool_var, model)`; a variable without an entry has no value. -/
def value_at_var (v : Nat) (ll_m : sat_model) : lbool := ll_m.getD v lbool.l_undef

/-- Modelled from the spec: value of a literal in an assignment,
`value_at(literal, model)`. -/
def value_at (l : literal) (ll_m : sat_model) : lbool :=
  if l.sign then (value_at_var l.var ll_m).neg else value_at_var l.var ll_m

/-- Modelled from the spec: a goal (class outside the sources): the two tracking flags
and the asserted formulas, each with its optional leaf dependency. -/
structure goal where
  models_enabled : Bool
  cores_enabled : Bool
  forms : List (expr × Option expr)
  deriving DecidableEq, Repr

/-- Assert a formula with a dependency into a goal, `goal::assert_expr(f, d)`. -/
def goal.assert_expr (g : goal) (f : expr) (d : Option expr) : goal :=
  { g with forms := g.forms ++ [(f, d)] }

/-- A model over original symbols: the registered interpretations, in order. -/
abbrev model := List (func_decl × expr)

/-- Modelled from the spec: register an interpretation, `model::register_decl`. -/
def model.register_decl (md : model) (d : func_decl) (v : expr) : model := md ++ [(d, v)]

/-- A model converter: a transformation of models. -/
abbrev model_converter := model → model

/-- Modelled from the spec: `concat` on model converters, which the sources only call.
An absent converter is the neutral element; otherwise the composition runs left to
right in construction order (spec section 9). -/
def concat : Option model_converter → Option model_converter → Option model_converter
  | none, c2 => c2
  | c1, none => c1
  | some c1, some c2 => some (fun md => c2 (c1 md))

/-- The per-call map from dependencies to literals, `obj_map<expr, sat::literal>`, as
the sequence of its entries in iteration order. -/
abbrev dep2asm_t := List (expr × literal)

/-- Lookup in the dependency map, `dep2asm.find(e, lit)`. -/
def dep2asm_t.find (d : dep2asm_t) (e : expr) : Option literal := List.lookup e d

/-- The map `u_map<expr*>` from literal indices to terms, as its entries. -/
abbrev u_map := List (Nat × expr)

/-- Modelled from the spec: insertion into a `u_map` (class outside the sources); an
existing entry for the key is overwritten. -/
def u_map.insert (m : u_map) (k : Nat) (e : expr) : u_map :=
  (k, e) :: m.filter (fun p => p.1 != k)

/-- Lookup in a `u_map`. -/
def u_map.find (m : u_map) (k : Nat) : Option expr := List.lookup k m

/-! ## Vectors -/

/-- Modelled from the spec: the vector class is outside the sources.  `back()` of an
empty vector has no value: the driver fails there. -/
def vec_back {α : Type} (v : List α) : Option α := v.getLast?

/-- Modelled from the spec: drop the last element, `pop_back()`. -/
def vec_pop_back {α : Type} (v : List α) : List α := v.dropLast

/-- Modelled from the spec: append an element, `push_back(x)`. -/
def vec_push_back {α : Type} (v : List α) (x : α) : List α := v ++ [x]

/-- Modelled from the spec: shrink to a recorded size, `resize(k)` (pop truncates the
lists).  The driver only ever resizes to a size recorded at a push, and the vectors
only grow between a push and its pop. -/
def vec_resize {α : Type} (v : List α) (k : Nat) : List α := v.take k

/-- Subtraction on `unsigned`, `a -= n`. -/
def unsigned_sub (a n : Nat) : Nat := (a + 2 ^ 32 - n) % 2 ^ 32

/-- Increment on `unsigned`, `++a`. -/
def unsigned_inc (a : Nat) : Nat := (a + 1) % 2 ^ 32

/-! ## The collaborators -/

/-- What one run of the preprocessing tactic hands back. -/
structure tactic_result (σ : Type) where
  /-- a `tactic_exception` was raised -/
  raised : Bool
  /-- the subgoal buffer `m_subgoals` -/
  subgoals : List goal
  /-- the model converter `m_mc2` -/
  mc : Option model_converter
  /-- the collaborators afterwards (the bit-blast rewriter is shared with the tactic) -/
  ext : σ

/-- The operations of the classes the driver delegates to, over their joint state. -/
structure externals (σ : Type) where
  /-- Call `m_solver.pop_to_base_level()` -/
  pop_to_base_level : σ → σ
  /-- Call `m_solver.user_push()` -/
  user_push : σ → σ
  /-- Call `m_solver.user_pop(n)` -/
  user_pop : Nat → σ → σ
  /-- Call `m_bb_rewriter.push()` -/
  bb_push : σ → σ
  /-- Call `m_bb_rewriter.pop(n)` -/
  bb_pop : Nat → σ → σ
  /-- Call `m_map.push()` -/
  map_push : σ → σ
  /-- Call `m_map.pop(n)` -/
  map_pop : Nat → σ → σ
  /-- Call `m_preprocess->reset()` followed by `(*m_preprocess)(g, ...)` -/
  preprocess : goal → σ → tactic_result σ
  /-- Call `m_goal2sat(*g, m_params, m_solver, m_map, dep2asm, true)` -/
  goal2sat : goal → dep2asm_t → σ → dep2asm_t × σ
  /-- Call `m_solver.check(num_lits, lits, weights, max_weight)` -/
  check : List literal → List weight → weight → σ → lbool × σ
  /-- Call `m_solver.get_core()` -/
  get_core : σ → List literal
  /-- Call `m_solver.get_model()` -/
  get_model : σ → sat_model
  /-- Call `m_solver.model_is_current()` -/
  model_is_current : σ → Bool
  /-- the entries of the atom map `m_map`, in iteration order -/
  map_entries : σ → List (expr × Nat)
  /-- Call `m_bb_rewriter.const2bits().empty()` -/
  const2bits_empty : σ → Bool
  /-- Call `mk_bit_blaster_model_converter(m, m_bb_rewriter.const2bits())` -/
  mk_bit_blaster_model_converter : σ → model_converter

/-! ## The driver -/

/-- The data members of `inc_sat_solver`.  `m_ext` stands for `m_solver`, `m_map` and
`m_bb_rewriter`.  `m_pc` and `m_dep_core` are written by the tactic and never read;
they are left out. -/
structure inc_sat_solver (σ : Type) where
  m_ext : σ
  m_fmls : List expr
  m_asmsf : List expr
  m_fmls_lim : List Nat
  m_asms_lim : List Nat
  m_fmls_head_lim : List Nat
  m_fmls_head : Nat
  m_core : List expr
  m_model : Option model
  m_mc : Option model_converter
  m_num_scopes : Nat
  m_asms : List literal
  m_subgoals : List goal
  m_mc2 : Option model_converter
  m_weights : List weight

/-- The constructor: everything empty, head and scope counter 0. -/
def inc_sat_solver.mk_fresh {σ : Type} (ext : σ) : inc_sat_solver σ :=
  { m_ext := ext, m_fmls := [], m_asmsf := [], m_fmls_lim := [], m_asms_lim := [],
    m_fmls_head_lim := [], m_fmls_head := 0, m_core := [], m_model := none, m_mc := none,
    m_num_scopes := 0, m_asms := [], m_subgoals := [], m_mc2 := none, m_weights := [] }

variable {σ : Type}

/-- Method `get_scope_level()`. -/
def get_scope_level (s : inc_sat_solver σ) : Nat := s.m_num_scopes

/-- Method `get_num_assertions()`. -/
def get_num_assertions (s : inc_sat_solver σ) : Nat := s.m_fmls.length

/-- Method `get_assertion(idx)`. -/
def get_assertion (s : inc_sat_solver σ) (idx : Nat) : Option expr := s.m_fmls.get? idx

/-- Method `get_num_assumptions()`. -/
def get_num_assumptions (s : inc_sat_solver σ) : Nat := s.m_asmsf.length

/-- Method `get_assumption(idx)`. -/
def get_assumption (s : inc_sat_solver σ) (idx : Nat) : Option expr := s.m_asmsf.get? idx

/-- Method `get_unsat_core(r)`: `r` is reset and receives `m_core`. -/
def get_unsat_core (s : inc_sat_solver σ) : List expr := [] ++ s.m_core

/-- Method `assert_expr(t)`. -/
def assert_expr (t : expr) (s : inc_sat_solver σ) : inc_sat_solver σ :=
  { s with m_fmls := vec_push_back s.m_fmls t }

/-- Method `assert_expr(t, a)`; the label `a` is a pointer that may be null. -/
def assert_expr_labelled (t : expr) (a : Option expr) (s : inc_sat_solver σ) :
    inc_sat_solver σ :=
  match a with
  | some a => assert_expr (expr.implies a t) { s with m_asmsf := vec_push_back s.m_asmsf a }
  | none => assert_expr t s

/-- Method `internalize_goal(g, dep2asm)`. -/
def internalize_goal (E : externals σ) (g : goal) (dep2asm : dep2asm_t)
    (s : inc_sat_solver σ) : lbool × dep2asm_t × inc_sat_solver σ :=
  let s1 := { s with m_mc2 := none, m_subgoals := [] }
  let r := E.preprocess g s1.m_ext
  let s2 := { s1 with m_ext := r.ext, m_mc2 := r.mc, m_subgoals := r.subgoals }
  if r.raised then (lbool.l_undef, dep2asm, s2)
  else
    match r.subgoals with
    | [g1] =>
      let q := E.goal2sat g1 dep2asm s2.m_ext
      (lbool.l_true, q.1, { s2 with m_ext := q.2 })
    | _ => (lbool.l_undef, dep2asm, s2)

/-- The loop of `internalize_formulas`: every pending formula from the head on is
asserted into the goal, the head moving along. -/
def assert_pending (fmls : List expr) (head : Nat) (g : goal) : goal × Nat :=
  (fmls.drop head).foldl (fun p f => (p.1.assert_expr f none, p.2 + 1)) (g, head)

/-- Method `internalize_formulas()`. -/
def internalize_formulas (E : externals σ) (s : inc_sat_solver σ) :
    lbool × inc_sat_solver σ :=
  if s.m_fmls_head = s.m_fmls.length then (lbool.l_true, s)
  else
    let p := assert_pending s.m_fmls s.m_fmls_head ⟨true, false, []⟩
    let r := internalize_goal E p.1 [] { s with m_fmls_head := p.2 }
    (r.1, r.2.2)

/-- Method `push()`.  The scope counter is an `unsigned`: its increment wraps at
`2 ^ 32`. -/
def push (E : externals σ) (s : inc_sat_solver σ) : inc_sat_solver σ :=
  let s1 := (internalize_formulas E s).2
  let s2 := { s1 with m_ext := E.user_push s1.m_ext }
  let s3 := { s2 with m_num_scopes := unsigned_inc s2.m_num_scopes }
  let s4 := { s3 with m_fmls_lim := vec_push_back s3.m_fmls_lim s3.m_fmls.length }
  let s5 := { s4 with m_asms_lim := vec_push_back s4.m_asms_lim s4.m_asmsf.length }
  let s6 := { s5 with m_fmls_head_lim := vec_push_back s5.m_fmls_head_lim s5.m_fmls_head }
  { s6 with m_ext := E.map_push (E.bb_push s6.m_ext) }

/-- The `while (n > 0)` loop of `pop`: one checkpoint of each trail stack per round. -/
def pop_loop : Nat → inc_sat_solver σ → Option (inc_sat_solver σ)
  | 0, s => some s
  | n + 1, s =>
    match vec_back s.m_fmls_head_lim, vec_back s.m_fmls_lim, vec_back s.m_asms_lim with
    | some h, some fl, some al =>
      pop_loop n { s with
        m_fmls_head := h
        m_fmls := vec_resize s.m_fmls fl
        m_fmls_lim := vec_pop_back s.m_fmls_lim
        m_fmls_head_lim := vec_pop_back s.m_fmls_head_lim
        m_asmsf := vec_resize s.m_asmsf al
        m_asms_lim := vec_pop_back s.m_asms_lim }
    | _, _, _ => none

/-- Method `pop(n)`; `none` when a checkpoint is read from an empty trail stack. -/
def pop (E : externals σ) (n : Nat) (s : inc_sat_solver σ) : Option (inc_sat_solver σ) :=
  let n1 := if n < s.m_num_scopes then s.m_num_scopes else n
  let s1 := { s with m_ext := E.user_pop n1 (E.map_pop n1 (E.bb_pop n1 s.m_ext)) }
  let s2 := { s1 with m_num_scopes := unsigned_sub s1.m_num_scopes n1 }
  pop_loop n1 s2

/-- The loop of `extract_assumptions`: `i` runs over the assumptions, `j` counts the
resolved ones; the weights buffer is compacted in place.  When the weights buffer is
not empty it holds one entry per assumption, so that position `i` exists. -/
def extract_assumptions_loop (dep2asm : dep2asm_t) :
    List expr → Nat → Nat → List literal → List weight → List literal × List weight
  | [], _, _, la, lw => (la, lw)
  | a :: rest, i, j, la, lw =>
    match dep2asm.find a with
    | some lit =>
      let lw1 :=
        if i ≠ j ∧ lw ≠ [] then
          match lw.get? i with
          | some w => lw.set j w
          | none => lw
        else lw
      extract_assumptions_loop dep2asm rest (i + 1) (j + 1) (vec_push_back la lit) lw1
    | none => extract_assumptions_loop dep2asm rest (i + 1) j la lw

/-- Method `extract_assumptions(sz, asms, dep2asm)`. -/
def extract_assumptions (asms : List expr) (dep2asm : dep2asm_t) (s : inc_sat_solver σ) :
    inc_sat_solver σ :=
  let r := extract_assumptions_loop dep2asm asms 0 0 [] s.m_weights
  { s with m_asms := r.1, m_weights := r.2 }

/-- Method `internalize_assumptions(sz, asms, dep2asm)`. -/
def internalize_assumptions (E : externals σ) (asms : List expr) (dep2asm : dep2asm_t)
    (s : inc_sat_solver σ) : lbool × dep2asm_t × inc_sat_solver σ :=
  if asms.length = 0 then (lbool.l_true, dep2asm, s)
  else
    let g := asms.foldl (fun (g : goal) a => g.assert_expr a (some a)) ⟨true, true, []⟩
    let r := internalize_goal E g dep2asm s
    if r.1 = lbool.l_true then (r.1, r.2.1, extract_assumptions asms r.2.1 r.2.2)
    else r

/-- The inverse map built at the start of `extract_core`. -/
def build_asm2dep (dep2asm : dep2asm_t) : u_map :=
  dep2asm.foldl (fun (m : u_map) p => m.insert p.2.index p.1) []

/-- The second loop of `extract_core`: every literal of the SAT core is looked up in the
inverse map; `none` when the `VERIFY` on the lookup fails. -/
def extract_core_loop (asm2dep : u_map) : List literal → List expr → Option (List expr)
  | [], acc => some acc
  | c :: rest, acc =>
    match asm2dep.find c.index with
    | some e => extract_core_loop asm2dep rest (vec_push_back acc e)
    | none => none

/-- Method `extract_core(dep2asm)`; `none` when the `VERIFY` fails. -/
def extract_core (E : externals σ) (dep2asm : dep2asm_t) (s : inc_sat_solver σ) :
    Option (inc_sat_solver σ) :=
  let asm2dep := build_asm2dep dep2asm
  let core := E.get_core s.m_ext
  match extract_core_loop asm2dep core [] with
  | some c => some { s with m_core := c }
  | none => none

/-- Method `check_assumptions(dep2asm)`: `false` where the source throws "bad state". -/
def check_assumptions (E : externals σ) (dep2asm : dep2asm_t) (s : inc_sat_solver σ) : Bool :=
  dep2asm.all (fun p => value_at p.2 (E.get_model s.m_ext) == lbool.l_true)

/-- Method `check_sat(sz, assumptions, weights, max_weight)`.  `weights` is a pointer
that may be null.  The first component is the verdict, or the message of the exception
that leaves the method; the second is the driver afterwards. -/
def check_sat (E : externals σ) (assumptions : List expr) (weights : Option (List weight))
    (max_weight : weight) (s : inc_sat_solver σ) : Except String lbool × inc_sat_solver σ :=
  let sz := assumptions.length
  let s1 := { s with m_weights := [] }
  let s2 :=
    match weights with
    | some w => { s1 with m_weights := s1.m_weights ++ w.take sz }
    | none => s1
  let s3 := { s2 with m_ext := E.pop_to_base_level s2.m_ext }
  let s4 := { s3 with m_model := none }
  let r1 := internalize_formulas E s4
  if r1.1 ≠ lbool.l_true then (Except.ok r1.1, r1.2)
  else
    let r2 := internalize_assumptions E assumptions [] r1.2
    if r2.1 ≠ lbool.l_true then (Except.ok r2.1, r2.2.2)
    else
      let dep2asm := r2.2.1
      let s5 := r2.2.2
      let r3 := E.check s5.m_asms s5.m_weights max_weight s5.m_ext
      let s6 := { s5 with m_ext := r3.2 }
      match r3.1 with
      | lbool.l_true =>
        if 0 < sz ∧ weights.isNone then
          if check_assumptions E dep2asm s6 then (Except.ok r3.1, s6)
          else (Except.error "bad state", s6)
        else (Except.ok r3.1, s6)
      | lbool.l_false =>
        if 0 < sz then
          match extract_core E dep2asm s6 with
          | some s7 => (Except.ok r3.1, s7)
          | none => (Except.error "Failed to verify: asm2dep.find(core[i].index(), e)", s6)
        else (Except.ok r3.1, s6)
      | lbool.l_undef => (Except.ok r3.1, s6)

/-- The base model of `extract_model`: every leaf atom of the atom map with its SAT
value; atoms without a value are skipped. -/
def base_model (entries : List (expr × Nat)) (ll_m : sat_model) : model :=
  entries.foldl (fun (md : model) p =>
    if 0 < p.1.get_num_args then md
    else
      match value_at_var p.2 ll_m with
      | lbool.l_true => md.register_decl p.1.get_decl expr.mk_true
      | lbool.l_false => md.register_decl p.1.get_decl expr.mk_false
      | lbool.l_undef => md) []

/-- Method `extract_model()`. -/
def extract_model (E : externals σ) (s : inc_sat_solver σ) : inc_sat_solver σ :=
  if E.model_is_current s.m_ext = false then { s with m_model := none }
  else
    let md := base_model (E.map_entries s.m_ext) (E.get_model s.m_ext)
    let s1 := { s with m_model := some md }
    if s1.m_mc.isSome ∨ E.const2bits_empty s1.m_ext = false then
      let mc := s1.m_mc
      let mc1 :=
        if E.const2bits_empty s1.m_ext = false then
          concat mc (some (E.mk_bit_blaster_model_converter s1.m_ext))
        else mc
      match mc1 with
      | some c => { s1 with m_model := some (c md) }
      | none => s1
    else s1

/-- Method `get_model(mdl)`: the model handed out and the driver afterwards. -/
def get_model (E : externals σ) (s : inc_sat_solver σ) : Option model × inc_sat_solver σ :=
  let s1 := if s.m_model.isNone then extract_model E s else s
  (s1.m_model, s1)

/-- The first loop of `translate`: every pending formula is translated and pushed onto
the pending formulas of the new driver. -/
def translate_fmls {τ : Type} (tr : expr → expr) (fmls : List expr) (result : inc_sat_solver τ) :
    inc_sat_solver τ :=
  fmls.foldl (fun r f => { r with m_fmls := vec_push_back r.m_fmls (tr f) }) result

/-- The second loop of `translate`: the same for the assumptions. -/
def translate_asmsf {τ : Type} (tr : expr → expr) (asmsf : List expr)
    (result : inc_sat_solver τ) : inc_sat_solver τ :=
  asmsf.foldl (fun r f => { r with m_asmsf := vec_push_back r.m_asmsf (tr f) }) result

/-- Method `translate(dst_m, p)`.  `tr` is the cross-manager translation and `dst_ext`
the collaborators the constructor creates for the new driver.  The first component is
the new driver or the message of the exception, the second is the original driver
after the call. -/
def translate {τ : Type} (tr : expr → expr) (dst_ext : τ) (s : inc_sat_solver σ) :
    Except String (inc_sat_solver τ) × inc_sat_solver σ :=
  if 0 < s.m_num_scopes then
    (Except.error "Cannot translate sat solver at non-base level", s)
  else
    let result := inc_sat_solver.mk_fresh dst_ext
    let result1 := translate_fmls tr s.m_fmls result
    let result2 := translate_asmsf tr s.m_asmsf result1
    (Except.ok result2, s)

/-! ## Reference collaborators

A small, complete implementation of the collaborators, used to run the driver on
concrete inputs: the pipeline hands the goal through unchanged, `goal2sat` keeps the
formulas as clauses (a formula with a dependency `d` becomes `f ∨ ¬d`, and `d` is
mapped to its positive literal), and the SAT core decides by enumerating assignments.
-/

/-- The joint state of the reference collaborators. -/
structure toy where
  /-- the formulas handed to the SAT core so far -/
  clauses : List expr
  /-- the user scopes of the SAT core: the number of clauses at each push -/
  marks : List Nat
  /-- the atom map -/
  atoms : List (expr × Nat)
  /-- the core of the last failed check -/
  core : List literal
  /-- the assignment of the last successful check -/
  mdl : sat_model
  /-- whether the assignment is current -/
  current : Bool
  /-- the assumption literals of every check so far, oldest first -/
  calls : List (List literal)
  /-- the model converter the pipeline reports -/
  mc : Option model_converter

/-- The constants of a term. -/
def expr.consts : expr → List Nat
  | expr.const id => [id]
  | expr.mk_true => []
  | expr.mk_false => []
  | expr.not e => e.consts
  | expr.or a b => a.consts ++ b.consts
  | expr.implies a t => a.consts ++ t.consts

/-- Truth value of a term under an assignment of its constants. -/
def expr.eval (ρ : List Bool) : expr → Bool
  | expr.const id => ρ.getD id false
  | expr.mk_true => true
  | expr.mk_false => false
  | expr.not e => !(e.eval ρ)
  | expr.or a b => a.eval ρ || b.eval ρ
  | expr.implies a t => !(a.eval ρ) || t.eval ρ

/-- Truth value of a literal under an assignment. -/
def literal.eval (ρ : List Bool) (l : literal) : Bool := ρ.getD l.var false != l.sign

/-- All assignments of `k` variables. -/
def assignments : Nat → List (List Bool)
  | 0 => [[]]
  | k + 1 => (assignments k).flatMap (fun ρ => [false :: ρ, true :: ρ])

namespace toy

/-- A fresh SAT core, atom map and rewriter, with the converter the pipeline reports. -/
def init (mc : Option model_converter) : toy :=
  { clauses := [], marks := [], atoms := [], core := [], mdl := [], current := false,
    calls := [], mc := mc }

/-- Enter the constants of a term into the atom map: constant `id` is variable `id`. -/
def add_atoms (atoms : List (expr × Nat)) (f : expr) : List (expr × Nat) :=
  f.consts.foldl (fun m id => if m.any (fun p => p.2 == id) then m else m ++ [(expr.const id, id)])
    atoms

/-- Translate one goal to clauses, atoms and dependency literals. -/
def goal2sat (g : goal) (d : dep2asm_t) (t : toy) : dep2asm_t × toy :=
  g.forms.foldl (fun (q : dep2asm_t × toy) p =>
    match p.2 with
    | none => (q.1, { q.2 with clauses := q.2.clauses ++ [p.1], atoms := add_atoms q.2.atoms p.1 })
    | some dep =>
      let t1 : toy := { q.2 with clauses := q.2.clauses ++ [expr.or p.1 (expr.not dep)],
                                 atoms := add_atoms (add_atoms q.2.atoms p.1) dep }
      match dep with
      | expr.const id => ((dep, ⟨2 * id⟩) :: q.1.filter (fun e => e.1 != dep), t1)
      | _ => (q.1, t1)) (d, t)

/-- Number of variables of the SAT core. -/
def num_vars (t : toy) : Nat := (t.atoms.map (fun p => p.2 + 1)).foldl max 0

/-- Decide the clauses under assumption literals by enumeration. -/
def check (lits : List literal) (_ws : List weight) (_max : weight) (t : toy) : lbool × toy :=
  let k := num_vars t
  match (assignments k).find? (fun ρ => t.clauses.all (expr.eval ρ) && lits.all (literal.eval ρ)) with
  | some ρ =>
    (lbool.l_true, { t with mdl := ρ.map (fun b => if b then lbool.l_true else lbool.l_false),
                            current := true, core := [], calls := t.calls ++ [lits] })
  | none =>
    (lbool.l_false, { t with
      core := if (assignments k).any (fun ρ => t.clauses.all (expr.eval ρ)) then lits else [],
      current := false, calls := t.calls ++ [lits] })

/-- Leave `n` user scopes of the SAT core. -/
def user_pop : Nat → toy → toy
  | 0, t => t
  | n + 1, t =>
    match t.marks.getLast? with
    | some k => user_pop n { t with clauses := t.clauses.take k, marks := t.marks.dropLast }
    | none => t

/-- The reference collaborators as a record of operations. -/
def ops : externals toy :=
  { pop_to_base_level := fun t => t
    user_push := fun t => { t with marks := t.marks ++ [t.clauses.length] }
    user_pop := user_pop
    bb_push := fun t => t
    bb_pop := fun _ t => t
    map_push := fun t => t
    map_pop := fun _ t => t
    preprocess := fun g t => ⟨false, [g], t.mc, t⟩
    goal2sat := goal2sat
    check := check
    get_core := fun t => t.core
    get_model := fun t => t.mdl
    model_is_current := fun t => t.current
    map_entries := fun t => t.atoms
    const2bits_empty := fun _ => true
    mk_bit_blaster_model_converter := fun _ md => md }

end toy

/-! ## Concrete drivers used in the evaluations -/

/-- A freshly constructed driver over the reference collaborators. -/
def fresh : inc_sat_solver toy := inc_sat_solver.mk_fresh (toy.init none)

/-- The label `a`. -/
def lbl_a : expr := expr.const 0

/-- The atom `x`. -/
def atom_x : expr := expr.const 1

/-- The atom `y`. -/
def atom_y : expr := expr.const 2

/-- A driver at scope depth 1 holding two assertions: assert `a`, push, assert `x`. -/
def depth_one : inc_sat_solver toy := assert_expr atom_x (push toy.ops (assert_expr lbl_a fresh))

/-- A driver at base level holding `a => x` under the label `a`, and `¬x`. -/
def labelled_pair : inc_sat_solver toy :=
  assert_expr (expr.not atom_x) (assert_expr_labelled atom_x (some lbl_a) fresh)

/-- The driver `labelled_pair` after `check_sat([a])`. -/
def after_first_check : inc_sat_solver toy := (check_sat toy.ops [lbl_a] none 0 labelled_pair).2

/-- The driver `after_first_check` with `x` asserted on top. -/
def then_assert_x : inc_sat_solver toy := assert_expr atom_x after_first_check

/-- A converter as a preprocessing step records it: it adds the value of a symbol
that the step eliminated. -/
def restore_symbol : model_converter := fun md => md ++ [(func_decl.user 7, expr.mk_false)]

/-- A driver whose pipeline reports `restore_symbol`, holding the assertion `x`, after
`check_sat([])`. -/
def checked_with_converter : inc_sat_solver toy :=
  (check_sat toy.ops [] none 0
    (assert_expr atom_x (inc_sat_solver.mk_fresh (toy.init (some restore_symbol))))).2

/-- A driver at base level with two assertions and one assumption. -/
def base_two : inc_sat_solver toy :=
  assert_expr atom_y (assert_expr_labelled atom_x (some lbl_a) fresh)

/-- A cross-manager translation for the evaluations: it renumbers the constants. -/
def shift_consts : expr → expr
  | expr.const id => expr.const (id + 10)
  | expr.mk_true => expr.mk_true
  | expr.mk_false => expr.mk_false
  | expr.not e => expr.not (shift_consts e)
  | expr.or a b => expr.or (shift_consts a) (shift_consts b)
  | expr.implies a t => expr.implies (shift_consts a) (shift_consts t)

/-- A dependency map in which two labels share one literal. -/
def two_labels : dep2asm_t := [(lbl_a, ⟨0⟩), (atom_x, ⟨0⟩)]

/-! ## Client sessions -/

/-- The driver states a client can reach from a freshly constructed driver (over the
collaborators `ext`) with `assert_expr`, labelled `assert_expr`, `push`, `check_sat`
and `pop(n)` for `n` at most the scope depth.  The size of a trail vector is an
`unsigned`: a `push` belongs to a session as long as the trail vectors can take its
checkpoints, that is, as long as their new size is below `2 ^ 32`. -/
inductive reachable (E : externals σ) (ext : σ) : inc_sat_solver σ → Prop
  | by_constructor : reachable E ext (inc_sat_solver.mk_fresh ext)
  | by_assert (t : expr) {s : inc_sat_solver σ} :
      reachable E ext s → reachable E ext (assert_expr t s)
  | by_assert_labelled (t : expr) (a : Option expr) {s : inc_sat_solver σ} :
      reachable E ext s → reachable E ext (assert_expr_labelled t a s)
  | by_push {s : inc_sat_solver σ} :
      reachable E ext s → s.m_fmls_lim.length + 1 < 2 ^ 32 → reachable E ext (push E s)
  | by_pop (n : Nat) {s t : inc_sat_solver σ} :
      reachable E ext s → n ≤ get_scope_level s → pop E n s = some t → reachable E ext t
  | by_check_sat (assumptions : List expr) (weights : Option (List weight))
      (max_weight : weight) {s : inc_sat_solver σ} :
      reachable E ext s → reachable E ext (check_sat E assumptions weights max_weight s).2

/-- The pending formulas and the trail: the members that assert, push, pop and the
head advance of `internalize_formulas` write. -/
def pending_view (s : inc_sat_solver σ) :
    List expr × List expr × List Nat × List Nat × List Nat × Nat × Nat :=
  (s.m_fmls, s.m_asmsf, s.m_fmls_lim, s.m_asms_lim, s.m_fmls_head_lim, s.m_num_scopes,
    s.m_fmls_head)

/-- The shape of the trail stacks: the head is within the pending formulas, the head
checkpoints are the pending-length checkpoints, the stacks are equally long, and the
pending-length checkpoints increase towards the top and stay within the pending
formulas. -/
def stacks_inv (s : inc_sat_solver σ) : Prop :=
  s.m_fmls_head ≤ s.m_fmls.length ∧
  s.m_fmls_head_lim = s.m_fmls_lim ∧
  s.m_asms_lim.length = s.m_fmls_lim.length ∧
  s.m_fmls_lim.Pairwise (fun a b => a ≤ b) ∧
  ∀ x ∈ s.m_fmls_lim, x ≤ s.m_fmls.length

/-- The trail invariant: the shape of the stacks, and one checkpoint per scope. -/
def trail_inv (s : inc_sat_solver σ) : Prop :=
  stacks_inv s ∧ s.m_fmls_lim.length = s.m_num_scopes

/-- Collaborators whose preprocessing pipeline raises a `tactic_exception` as long as
the flag is set, and clears the flag when it does; apart from that they are the
reference collaborators. -/
def raising_ops : externals (toy × Bool) :=
  { pop_to_base_level := fun p => (toy.ops.pop_to_base_level p.1, p.2)
    user_push := fun p => (toy.ops.user_push p.1, p.2)
    user_pop := fun n p => (toy.ops.user_pop n p.1, p.2)
    bb_push := fun p => (toy.ops.bb_push p.1, p.2)
    bb_pop := fun n p => (toy.ops.bb_pop n p.1, p.2)
    map_push := fun p => (toy.ops.map_push p.1, p.2)
    map_pop := fun n p => (toy.ops.map_pop n p.1, p.2)
    preprocess := fun g p =>
      if p.2 then ⟨true, [], none, (p.1, false)⟩
      else ⟨(toy.ops.preprocess g p.1).raised, (toy.ops.preprocess g p.1).subgoals,
            (toy.ops.preprocess g p.1).mc, ((toy.ops.preprocess g p.1).ext, false)⟩
    goal2sat := fun g d p => ((toy.ops.goal2sat g d p.1).1, ((toy.ops.goal2sat g d p.1).2, p.2))
    check := fun lits ws mw p => ((toy.ops.check lits ws mw p.1).1, ((toy.ops.check lits ws mw p.1).2, p.2))
    get_core := fun p => toy.ops.get_core p.1
    get_model := fun p => toy.ops.get_model p.1
    model_is_current := fun p => toy.ops.model_is_current p.1
    map_entries := fun p => toy.ops.map_entries p.1
    const2bits_empty := fun p => toy.ops.const2bits_empty p.1
    mk_bit_blaster_model_converter := fun p => toy.ops.mk_bit_blaster_model_converter p.1 }

/-- A driver over collaborators whose pipeline raises once, holding `x` and `¬x`. -/
def contradiction_pending : inc_sat_solver (toy × Bool) :=
  assert_expr (expr.not atom_x) (assert_expr atom_x (inc_sat_solver.mk_fresh (toy.init none, true)))

/-- The driver `contradiction_pending` after a first `check_sat([])`. -/
def after_raised_check : inc_sat_solver (toy × Bool) :=
  (check_sat raising_ops [] none 0 contradiction_pending).2

/-- A dependency map with the single key `a`. -/
def one_label : dep2asm_t := [(lbl_a, ⟨0⟩)]

/-- Three assumptions of which the reference `goal2sat` resolves the last two, with
their weights. -/
def mixed_asms : List expr := [expr.not atom_x, lbl_a, atom_y]

/-- The weights of `mixed_asms`. -/
def mixed_weights : List weight := [5, 7, 9]

/-- The dependency map of `mixed_asms`. -/
def mixed_deps : dep2asm_t := [(atom_y, ⟨4⟩), (lbl_a, ⟨0⟩)]

/-- The indices of the assumptions that the dependency map resolves, in increasing
order, the first assumption of the list having index `i`. -/
def resolved_from (D : dep2asm_t) : List expr → Nat → List Nat
  | [], _ => []
  | a :: rest, i =>
    if (D.find a).isSome then i :: resolved_from D rest (i + 1) else resolved_from D rest (i + 1)

/-- The indices `i` for which the dependency map resolves `asms[i]`, in increasing
order: the `k`-th entry is the index of the `k`-th resolved assumption. -/
def resolved_indices (D : dep2asm_t) (asms : List expr) : List Nat := resolved_from D asms 0

/-! ## Frame lemmas: what the internalization steps leave alone -/

/-- The bookkeeping fields that only assert, push and pop write. -/
def same_trail (s t : inc_sat_solver σ) : Prop :=
  t.m_fmls = s.m_fmls ∧ t.m_asmsf = s.m_asmsf ∧ t.m_fmls_lim = s.m_fmls_lim ∧
  t.m_asms_lim = s.m_asms_lim ∧ t.m_fmls_head_lim = s.m_fmls_head_lim ∧
  t.m_num_scopes = s.m_num_scopes

/-- The per-call buffers and caches that the internalization of a goal leaves alone. -/
def same_buffers (s t : inc_sat_solver σ) : Prop :=
  t.m_core = s.m_core ∧ t.m_asms = s.m_asms ∧ t.m_mc = s.m_mc ∧ t.m_model = s.m_model ∧
  t.m_weights = s.m_weights ∧ t.m_fmls_head = s.m_fmls_head

theorem internalize_goal_trail (E : externals σ) (g : goal) (d : dep2asm_t)
    (s : inc_sat_solver σ) : same_trail s (internalize_goal E g d s).2.2 := by
  unfold internalize_goal same_trail
  simp only
  split
  · simp
  · split <;> simp

theorem internalize_goal_buffers (E : externals σ) (g : goal) (d : dep2asm_t)
    (s : inc_sat_solver σ) : same_buffers s (internalize_goal E g d s).2.2 := by
  unfold internalize_goal same_buffers
  simp only
  split
  · simp
  · split <;> simp

theorem assert_pending_head (fmls : List expr) (head : Nat) (g : goal) :
    (assert_pending fmls head g).2 = head + (fmls.drop head).length := by
  unfold assert_pending
  generalize fmls.drop head = l
  induction l generalizing g head with
  | nil => simp
  | cons f l ih =>
    simp only [List.foldl_cons, List.length_cons]
    rw [ih]
    omega

theorem internalize_formulas_trail (E : externals σ) (s : inc_sat_solver σ) :
    same_trail s (internalize_formulas E s).2 := by
  unfold internalize_formulas
  split
  · simp [same_trail]
  · exact internalize_goal_trail E _ _ _

theorem internalize_formulas_head (E : externals σ) (s : inc_sat_solver σ)
    (h : s.m_fmls_head ≤ s.m_fmls.length) :
    (internalize_formulas E s).2.m_fmls_head = s.m_fmls.length := by
  unfold internalize_formulas
  split
  · rename_i he
    exact he
  · have hb := internalize_goal_buffers E (assert_pending s.m_fmls s.m_fmls_head ⟨true, false, []⟩).1 []
      { s with m_fmls_head := (assert_pending s.m_fmls s.m_fmls_head ⟨true, false, []⟩).2 }
    have h6 := hb.2.2.2.2.2
    simp only at h6 ⊢
    rw [h6, assert_pending_head, List.length_drop]
    omega

/-! ## Scopes: push and pop -/

theorem pop_below_depth (E : externals σ) (n : Nat) (s : inc_sat_solver σ)
    (h : n < s.m_num_scopes) : pop E n s = pop E s.m_num_scopes s := by
  unfold pop
  simp [h]

theorem pop_loop_short (n : Nat) (s : inc_sat_solver σ) (h : s.m_fmls_head_lim.length < n) :
    pop_loop n s = none := by
  induction n generalizing s with
  | zero => omega
  | succ n ih =>
    unfold pop_loop
    split
    · rename_i h1 fl al hb _ _
      apply ih
      have hne : s.m_fmls_head_lim ≠ [] := by
        intro he
        simp [vec_back, he] at hb
      have hpos := List.length_pos.mpr hne
      simp only [vec_pop_back, List.length_dropLast]
      omega
    · rfl

/-- C1, evaluated on the driver: at scope depth 1 with two assertions, the sequence
push, assert, pop(1) does not return to depth 1 with two assertions; the pop takes the
driver to depth 0 and keeps one assertion only, because `pop` raises every `n` below
the scope depth to the scope depth. -/
theorem pop_one_inside_scope_leaves_all :
    get_scope_level depth_one = 1 ∧ get_num_assertions depth_one = 2 ∧
    get_num_assumptions depth_one = 0 ∧
    (pop toy.ops 1 (assert_expr atom_y (push toy.ops depth_one))).map
      (fun s => (get_scope_level s, get_num_assertions s, get_num_assumptions s))
      = some (0, 1, 0) := by
  decide

/-- C2, evaluated on the driver: when `n` exceeds the scope depth (as `unsigned`
numbers) and the trail stacks hold one checkpoint per scope, `pop(n)` is not `pop(d)`:
the scope counter is set to the wrapped difference, which is not 0, and the restore
loop reads a checkpoint from an empty trail stack. -/
theorem pop_beyond_depth_fails (E : externals σ) (n : Nat) (s : inc_sat_solver σ)
    (hn : n < 2 ^ 32) (hd : s.m_num_scopes < n)
    (hl : s.m_fmls_head_lim.length = s.m_num_scopes) :
    pop E n s = none ∧ unsigned_sub s.m_num_scopes n ≠ 0 := by
  constructor
  · unfold pop
    have h1 : ¬ n < s.m_num_scopes := by omega
    simp only [h1, if_false]
    apply pop_loop_short
    simp only
    omega
  · unfold unsigned_sub
    omega

theorem pop_beyond_depth_fails_witness :
    (1 : Nat) < 2 ^ 32 ∧ fresh.m_num_scopes < 1 ∧
    fresh.m_fmls_head_lim.length = fresh.m_num_scopes ∧
    (pop toy.ops 1 fresh).isNone = true ∧ unsigned_sub fresh.m_num_scopes 1 = 4294967295 :=
  ⟨by decide, by decide, by decide,
   by rw [(pop_beyond_depth_fails toy.ops 1 fresh (by decide) (by decide) (by decide)).1]; rfl,
   by decide⟩

/-! ## Assertions -/

/-- C9: `assert_expr(t, a)` with a label appends the label to the assumption list and
the implication `a => t` to the pending formulas; with a null label it is
`assert_expr(t)`, which appends `t` and leaves the assumption list alone.  In both
cases each list keeps its earlier entries, and the head index, the scope depth and the
trail stacks are unchanged. -/
theorem assert_expr_labelled_spec (t a : expr) (s : inc_sat_solver σ) :
    (assert_expr_labelled t (some a) s).m_asmsf = s.m_asmsf ++ [a] ∧
    (assert_expr_labelled t (some a) s).m_fmls = s.m_fmls ++ [expr.implies a t] ∧
    get_num_assumptions (assert_expr_labelled t (some a) s) = get_num_assumptions s + 1 ∧
    get_num_assertions (assert_expr_labelled t (some a) s) = get_num_assertions s + 1 ∧
    get_assumption (assert_expr_labelled t (some a) s) (get_num_assumptions s) = some a ∧
    get_assertion (assert_expr_labelled t (some a) s) (get_num_assertions s)
      = some (expr.implies a t) ∧
    (assert_expr_labelled t (some a) s).m_fmls_head = s.m_fmls_head ∧
    get_scope_level (assert_expr_labelled t (some a) s) = get_scope_level s ∧
    assert_expr_labelled t none s = assert_expr t s ∧
    (assert_expr_labelled t none s).m_asmsf = s.m_asmsf ∧
    (assert_expr_labelled t none s).m_fmls = s.m_fmls ++ [t] ∧
    (assert_expr_labelled t none s).m_fmls_head = s.m_fmls_head ∧
    get_scope_level (assert_expr_labelled t none s) = get_scope_level s := by
  simp [assert_expr_labelled, assert_expr, vec_push_back, get_num_assumptions,
    get_num_assertions, get_assumption, get_assertion, get_scope_level]

theorem push_fields (E : externals σ) (s : inc_sat_solver σ)
    (h : s.m_fmls_head ≤ s.m_fmls.length) :
    (push E s).m_num_scopes = unsigned_inc s.m_num_scopes ∧
    (push E s).m_fmls = s.m_fmls ∧
    (push E s).m_asmsf = s.m_asmsf ∧
    (push E s).m_fmls_lim = s.m_fmls_lim ++ [s.m_fmls.length] ∧
    (push E s).m_asms_lim = s.m_asms_lim ++ [s.m_asmsf.length] ∧
    (push E s).m_fmls_head_lim = s.m_fmls_head_lim ++ [s.m_fmls.length] ∧
    (push E s).m_fmls_head = s.m_fmls.length := by
  obtain ⟨h1, h2, h3, h4, h5, h6⟩ := internalize_formulas_trail E s
  have hh := internalize_formulas_head E s h
  simp [push, vec_push_back, h1, h2, h3, h4, h5, h6, hh]

/-- At base level the scope discipline works: after a push, any driver that differs
from the pushed one only by further assertions and assumptions is taken back by
`pop(1)` to the assertions, assumptions and scope level before the push. -/
theorem push_pop_base (E : externals σ) (s u : inc_sat_solver σ) (xs ys : List expr)
    (h0 : s.m_num_scopes = 0) (hh : s.m_fmls_head ≤ s.m_fmls.length)
    (h1 : u.m_fmls = (push E s).m_fmls ++ xs) (h2 : u.m_asmsf = (push E s).m_asmsf ++ ys)
    (h3 : u.m_fmls_lim = (push E s).m_fmls_lim) (h4 : u.m_asms_lim = (push E s).m_asms_lim)
    (h5 : u.m_fmls_head_lim = (push E s).m_fmls_head_lim)
    (h6 : u.m_num_scopes = (push E s).m_num_scopes) :
    ∃ t, pop E 1 u = some t ∧ t.m_fmls = s.m_fmls ∧ t.m_asmsf = s.m_asmsf ∧
      t.m_num_scopes = 0 ∧ t.m_fmls_lim = s.m_fmls_lim ∧ t.m_asms_lim = s.m_asms_lim ∧
      t.m_fmls_head_lim = s.m_fmls_head_lim := by
  obtain ⟨p1, p2, p3, p4, p5, p6, _⟩ := push_fields E s hh
  rw [p2] at h1
  rw [p3] at h2
  rw [p4] at h3
  rw [p5] at h4
  rw [p6] at h5
  rw [p1, h0] at h6
  have h7 : u.m_num_scopes = 1 := by rw [h6]; decide
  simp [pop, pop_loop, h1, h2, h3, h4, h5, h7, vec_back, vec_resize, vec_pop_back, unsigned_sub]

theorem internalize_assumptions_nil (E : externals σ) (d : dep2asm_t) (s : inc_sat_solver σ) :
    internalize_assumptions E [] d s = (lbool.l_true, d, s) := by
  simp [internalize_assumptions]

theorem internalize_formulas_buffers (E : externals σ) (s : inc_sat_solver σ) :
    (internalize_formulas E s).2.m_core = s.m_core ∧
    (internalize_formulas E s).2.m_asms = s.m_asms ∧
    (internalize_formulas E s).2.m_mc = s.m_mc := by
  unfold internalize_formulas
  split
  · simp
  · have hb := internalize_goal_buffers E (assert_pending s.m_fmls s.m_fmls_head ⟨true, false, []⟩).1 []
      { s with m_fmls_head := (assert_pending s.m_fmls s.m_fmls_head ⟨true, false, []⟩).2 }
    exact ⟨hb.1, hb.2.1, hb.2.2.1⟩

theorem check_sat_nil_keeps_buffers (E : externals σ) (w : Option (List weight))
    (mw : weight) (s : inc_sat_solver σ) :
    (check_sat E [] w mw s).2.m_asms = s.m_asms ∧
    (check_sat E [] w mw s).2.m_core = s.m_core := by
  unfold check_sat
  simp only [internalize_assumptions_nil, List.length_nil, Nat.lt_irrefl, false_and, if_false,
    ne_eq, not_true_eq_false]
  split
  · rename_i h
    refine ⟨?_, ?_⟩
    · rw [(internalize_formulas_buffers E _).2.1]
      cases w <;> rfl
    · rw [(internalize_formulas_buffers E _).1]
      cases w <;> rfl
  · refine ⟨?_, ?_⟩
    · split <;> (simp only; rw [(internalize_formulas_buffers E _).2.1]; cases w <;> rfl)
    · split <;> (simp only; rw [(internalize_formulas_buffers E _).1]; cases w <;> rfl)

/-- C3, evaluated on the driver: with `a => x` (label `a`) and `¬x` asserted,
`check_sat([a])` leaves the literal of `a` in the assumption buffer; the following
`check_sat([])` hands that literal to the SAT core once more (the core is called with
the same literal both times) and answers false, although the SAT core answers true on
the same clauses when it is given no assumption. -/
theorem check_sat_nil_hands_stale_literals :
    (check_sat toy.ops [lbl_a] none 0 labelled_pair).1.toOption = some lbool.l_false ∧
    after_first_check.m_asms = [⟨0⟩] ∧
    (check_sat toy.ops [] none 0 after_first_check).2.m_ext.calls = [[⟨0⟩], [⟨0⟩]] ∧
    (check_sat toy.ops [] none 0 after_first_check).1.toOption = some lbool.l_false ∧
    (toy.check [] [] 0 after_first_check.m_ext).1 = lbool.l_true := by
  decide

/-- C4, evaluated on the driver: after `check_sat([a])` has stored the core `[a]`, and
`x` has been asserted on top of `a => x` and `¬x`, `check_sat([])` returns false, the
SAT core reports an empty core, and `get_unsat_core` still returns `[a]`. -/
theorem check_sat_nil_keeps_stale_core :
    get_unsat_core after_first_check = [lbl_a] ∧
    (check_sat toy.ops [] none 0 then_assert_x).1.toOption = some lbool.l_false ∧
    (check_sat toy.ops [] none 0 then_assert_x).2.m_ext.core = [] ∧
    get_unsat_core (check_sat toy.ops [] none 0 then_assert_x).2 = [lbl_a] := by
  decide

/-! ## Models -/

theorem extract_model_without_mc (E : externals σ) (s : inc_sat_solver σ)
    (hc : E.model_is_current s.m_ext = true) (hm : s.m_mc = none)
    (hb : E.const2bits_empty s.m_ext = true) :
    (extract_model E s).m_model = some (base_model (E.map_entries s.m_ext) (E.get_model s.m_ext)) := by
  simp [extract_model, hc, hm, hb]

theorem internalize_assumptions_mc (E : externals σ) (asms : List expr) (d : dep2asm_t)
    (s : inc_sat_solver σ) : (internalize_assumptions E asms d s).2.2.m_mc = s.m_mc := by
  unfold internalize_assumptions
  split
  · rfl
  · simp only
    split
    · simp only [extract_assumptions]
      exact (internalize_goal_buffers E _ d s).2.2.1
    · exact (internalize_goal_buffers E _ d s).2.2.1

theorem extract_core_mc (E : externals σ) (d : dep2asm_t) (s t : inc_sat_solver σ)
    (h : extract_core E d s = some t) : t.m_mc = s.m_mc := by
  unfold extract_core at h
  simp only at h
  split at h
  · cases h
    rfl
  · cases h

/-- No call of `check_sat` writes `m_mc`, the converter that `extract_model` applies. -/
theorem check_sat_keeps_mc (E : externals σ) (asms : List expr) (w : Option (List weight))
    (mw : weight) (s : inc_sat_solver σ) : (check_sat E asms w mw s).2.m_mc = s.m_mc := by
  have h0 : ∀ u : inc_sat_solver σ, u.m_mc = s.m_mc →
      (internalize_formulas E u).2.m_mc = s.m_mc := fun u hu => by
    rw [(internalize_formulas_buffers E u).2.2, hu]
  have h1 : ∀ u : inc_sat_solver σ, u.m_mc = s.m_mc →
      (internalize_assumptions E asms [] (internalize_formulas E u).2).2.2.m_mc = s.m_mc :=
    fun u hu => by rw [internalize_assumptions_mc, h0 u hu]
  unfold check_sat
  simp only
  split
  · apply h0
    cases w <;> rfl
  · split
    · apply h1
      cases w <;> rfl
    · split
      · split
        · split <;> (simp only; apply h1; cases w <;> rfl)
        · simp only
          apply h1
          cases w <;> rfl
      · split
        · split
          · rename_i t ht
            rw [extract_core_mc E _ _ t ht]
            simp only
            apply h1
            cases w <;> rfl
          · simp only
            apply h1
            cases w <;> rfl
        · simp only
          apply h1
          cases w <;> rfl
      · simp only
        apply h1
        cases w <;> rfl

/-- C6, evaluated on the driver: the pipeline reports the converter `restore_symbol`,
which `internalize_goal` stores in `m_mc2`; `check_sat([])` answers true; `get_model`
returns the base model `x = true` as it is, without the interpretation that the
recorded converter adds, because `extract_model` applies `m_mc`, which is never set. -/
theorem get_model_skips_recorded_converter :
    checked_with_converter.m_mc2.map (fun c => c []) = some [(func_decl.user 7, expr.mk_false)] ∧
    checked_with_converter.m_mc.isNone = true ∧
    checked_with_converter.m_model.isNone = true ∧
    toy.ops.model_is_current checked_with_converter.m_ext = true ∧
    (get_model toy.ops checked_with_converter).1 = some [(func_decl.user 1, expr.mk_true)] ∧
    restore_symbol [(func_decl.user 1, expr.mk_true)]
      = [(func_decl.user 1, expr.mk_true), (func_decl.user 7, expr.mk_false)] := by
  decide

/-! ## Lifting the SAT core back to labels -/

theorem u_map_find_filter (m : u_map) (k j : Nat) (h : j ≠ k) :
    u_map.find (m.filter (fun p => p.1 != k)) j = u_map.find m j := by
  induction m with
  | nil => rfl
  | cons p m ih =>
    obtain ⟨pk, pe⟩ := p
    by_cases hp : pk = k
    · subst hp
      have hj : (j == pk) = false := by simpa using h
      simp only [u_map.find] at ih
      simp [u_map.find, List.filter_cons, List.lookup_cons, hj, ih]
    · have hne : (pk != k) = true := by simpa using hp
      simp only [u_map.find] at ih
      simp only [u_map.find, List.filter_cons, hne, if_true, List.lookup_cons]
      cases (j == pk) <;> simp [ih]

theorem u_map_find_insert (m : u_map) (k j : Nat) (e : expr) :
    (m.insert k e).find j = if j = k then some e else m.find j := by
  by_cases h : j = k
  · subst h
    simp [u_map.insert, u_map.find, List.lookup_cons]
  · have hj : (j == k) = false := by simpa using h
    have hf := u_map_find_filter m k j h
    simp only [u_map.find] at hf
    simp [u_map.insert, u_map.find, List.lookup_cons, hj, h, hf]

theorem literal_index_inj (l c : literal) (h : l.index = c.index) : l = c := by
  cases l
  cases c
  simp only [literal.index] at h
  simp [h]

/-- Every entry of the inverse map comes from the accumulator or from an entry of the
dependency map with that literal index. -/
theorem asm2dep_sound (D : dep2asm_t) (M : u_map) (k : Nat) (e : expr)
    (h : (D.foldl (fun (m : u_map) p => m.insert p.2.index p.1) M).find k = some e) :
    M.find k = some e ∨ ∃ l, (e, l) ∈ D ∧ l.index = k := by
  induction D generalizing M with
  | nil => exact Or.inl h
  | cons p D ih =>
    rcases ih _ h with h1 | ⟨l, hl, hk⟩
    · rw [u_map_find_insert] at h1
      by_cases hj : k = p.2.index
      · simp only [hj, if_true, Option.some.injEq] at h1
        exact Or.inr ⟨p.2, by simp [← h1], hj.symm⟩
      · simp only [hj, if_false] at h1
        exact Or.inl h1
    · exact Or.inr ⟨l, List.mem_cons_of_mem _ hl, hk⟩

/-- Every key of the accumulator and every literal index of the dependency map is a
key of the inverse map. -/
theorem asm2dep_complete (D : dep2asm_t) (M : u_map) (k : Nat)
    (h : (M.find k).isSome = true ∨ ∃ p ∈ D, p.2.index = k) :
    ((D.foldl (fun (m : u_map) p => m.insert p.2.index p.1) M).find k).isSome = true := by
  induction D generalizing M with
  | nil =>
    rcases h with h | ⟨p, hp, _⟩
    · exact h
    · cases hp
  | cons q D ih =>
    apply ih
    rcases h with h | ⟨p, hp, hk⟩
    · left
      rw [u_map_find_insert]
      split <;> simp [h]
    · rcases List.mem_cons.mp hp with rfl | hp
      · left
        rw [u_map_find_insert]
        simp [hk]
      · exact Or.inr ⟨p, hp, hk⟩

theorem extract_core_loop_spec (M : u_map) (core : List literal) (acc : List expr)
    (h : ∀ c ∈ core, (M.find c.index).isSome = true) :
    ∃ out, extract_core_loop M core acc = some (acc ++ out) ∧
      List.Forall₂ (fun e c => M.find c.index = some e) out core := by
  induction core generalizing acc with
  | nil => exact ⟨[], by simp [extract_core_loop], List.Forall₂.nil⟩
  | cons c core ih =>
    have hc := h c (List.mem_cons_self _ _)
    obtain ⟨e, he⟩ := Option.isSome_iff_exists.mp hc
    obtain ⟨out, h1, h2⟩ := ih (vec_push_back acc e) (fun c1 hc1 => h c1 (List.mem_cons_of_mem _ hc1))
    refine ⟨e :: out, ?_, List.Forall₂.cons he h2⟩
    simp only [vec_push_back] at h1
    simp only [extract_core_loop, he, vec_push_back, h1]
    simp

theorem dep2asm_find_of_mem (D : dep2asm_t) (hD : (D.map Prod.fst).Nodup) (e : expr)
    (l : literal) (h : (e, l) ∈ D) : D.find e = some l := by
  induction D with
  | nil => cases h
  | cons p D ih =>
    obtain ⟨pe, pl⟩ := p
    simp only [List.map_cons, List.nodup_cons, List.mem_map, not_exists, not_and] at hD
    simp only [dep2asm_t.find] at ih
    rcases List.mem_cons.mp h with heq | hmem
    · cases heq
      simp [dep2asm_t.find, List.lookup_cons]
    · have hne : e ≠ pe := by
        intro he
        exact hD.1 (e, l) hmem he
      have hb : (e == pe) = false := by simpa using hne
      simp only [dep2asm_t.find, List.lookup_cons, hb]
      exact ih hD.2 hmem

/-- C5: for every dependency map `D` (a map: no key twice) and every SAT core all of
whose literals are values of `D`, `extract_core` succeeds and leaves an exposed core of
the length of the SAT core whose i-th element is a key `l` of `D` with `D(l)` the i-th
core literal; this holds also when `D` maps several keys to one literal. -/
theorem extract_core_spec (E : externals σ) (D : dep2asm_t) (s : inc_sat_solver σ)
    (hD : (D.map Prod.fst).Nodup)
    (hc : ∀ c ∈ E.get_core s.m_ext, ∃ l, (l, c) ∈ D) :
    ∃ t, extract_core E D s = some t ∧
      (get_unsat_core t).length = (E.get_core s.m_ext).length ∧
      (∀ i, i < (E.get_core s.m_ext).length →
        ∃ l c, (get_unsat_core t).get? i = some l ∧ (E.get_core s.m_ext).get? i = some c ∧
          D.find l = some c) ∧
      (∀ l ∈ get_unsat_core t, l ∈ D.map Prod.fst) := by
  have hsome : ∀ c ∈ E.get_core s.m_ext, ((build_asm2dep D).find c.index).isSome = true := by
    intro c hcm
    obtain ⟨l, hl⟩ := hc c hcm
    exact asm2dep_complete D [] c.index (Or.inr ⟨(l, c), hl, rfl⟩)
  obtain ⟨out, h1, h2⟩ := extract_core_loop_spec (build_asm2dep D) (E.get_core s.m_ext) [] hsome
  have hfind : List.Forall₂ (fun e c => D.find e = some c) out (E.get_core s.m_ext) := by
    refine h2.imp ?_
    intro e c hec
    rcases asm2dep_sound D [] c.index e hec with h0 | ⟨l, hl, hk⟩
    · simp [u_map.find] at h0
    · have := literal_index_inj l c hk
      subst this
      exact dep2asm_find_of_mem D hD e l hl
  refine ⟨{ s with m_core := out }, ?_, ?_, ?_, ?_⟩
  · simp only [extract_core, h1, List.nil_append]
  · simpa [get_unsat_core] using hfind.length_eq
  · intro i hi
    have hlen := hfind.length_eq
    have hi2 : i < out.length := by omega
    refine ⟨out.get ⟨i, hi2⟩, (E.get_core s.m_ext).get ⟨i, hi⟩, ?_, ?_, ?_⟩
    · simp [get_unsat_core, List.get?_eq_get hi2]
    · simp [List.get?_eq_get hi]
    · exact List.Forall₂.get hfind hi2 hi
  · intro l hl
    simp only [get_unsat_core, List.nil_append] at hl
    obtain ⟨i, rfl⟩ := List.mem_iff_get.mp hl
    have hlen := hfind.length_eq
    have hi2 : i.1 < (E.get_core s.m_ext).length := by omega
    have hf := List.Forall₂.get hfind i.2 hi2
    simp only [dep2asm_t.find] at hf
    obtain ⟨l₁, l₂, hsplit, _⟩ := List.lookup_eq_some_iff.mp hf
    refine List.mem_map.mpr ⟨(out.get i, (E.get_core s.m_ext).get ⟨i.1, hi2⟩), ?_, rfl⟩
    rw [hsplit]
    simp

theorem extract_core_spec_witness :
    (two_labels.map Prod.fst).Nodup ∧
    (∀ c ∈ toy.ops.get_core after_first_check.m_ext, ∃ l, (l, c) ∈ two_labels) ∧
    (extract_core toy.ops two_labels after_first_check).map get_unsat_core = some [atom_x] ∧
    ∃ t, extract_core toy.ops two_labels after_first_check = some t ∧
      (get_unsat_core t).length = (toy.ops.get_core after_first_check.m_ext).length ∧
      (∀ i, i < (toy.ops.get_core after_first_check.m_ext).length →
        ∃ l c, (get_unsat_core t).get? i = some l ∧
          (toy.ops.get_core after_first_check.m_ext).get? i = some c ∧
          two_labels.find l = some c) ∧
      (∀ l ∈ get_unsat_core t, l ∈ two_labels.map Prod.fst) :=
  ⟨by decide,
   fun c hc => ⟨lbl_a, by
     have h0 : c = ⟨0⟩ := by
       have hcore : toy.ops.get_core after_first_check.m_ext = [⟨0⟩] := by decide
       rw [hcore] at hc
       simpa using hc
     subst h0
     decide⟩,
   by decide,
   extract_core_spec toy.ops two_labels after_first_check (by decide)
     (fun c hc => ⟨lbl_a, by
       have h0 : c = ⟨0⟩ := by
         have hcore : toy.ops.get_core after_first_check.m_ext = [⟨0⟩] := by decide
         rw [hcore] at hc
         simpa using hc
       subst h0
       decide⟩)⟩

/-! ## Translation to another term manager -/

theorem translate_fmls_loop {τ : Type} (tr : expr → expr) (l : List expr) (r : inc_sat_solver τ) :
    (translate_fmls tr l r).m_fmls = r.m_fmls ++ l.map tr ∧
    (translate_fmls tr l r).m_asmsf = r.m_asmsf ∧
    (translate_fmls tr l r).m_num_scopes = r.m_num_scopes ∧
    (translate_fmls tr l r).m_fmls_head = r.m_fmls_head := by
  unfold translate_fmls
  induction l generalizing r with
  | nil => simp
  | cons f l ih =>
    simp only [List.foldl_cons, List.map_cons]
    obtain ⟨h1, h2, h3, h4⟩ := ih { r with m_fmls := vec_push_back r.m_fmls (tr f) }
    refine ⟨?_, h2, h3, h4⟩
    rw [h1]
    simp [vec_push_back]

theorem translate_asmsf_loop {τ : Type} (tr : expr → expr) (l : List expr) (r : inc_sat_solver τ) :
    (translate_asmsf tr l r).m_asmsf = r.m_asmsf ++ l.map tr ∧
    (translate_asmsf tr l r).m_fmls = r.m_fmls ∧
    (translate_asmsf tr l r).m_num_scopes = r.m_num_scopes ∧
    (translate_asmsf tr l r).m_fmls_head = r.m_fmls_head := by
  unfold translate_asmsf
  induction l generalizing r with
  | nil => simp
  | cons f l ih =>
    simp only [List.foldl_cons, List.map_cons]
    obtain ⟨h1, h2, h3, h4⟩ := ih { r with m_asmsf := vec_push_back r.m_asmsf (tr f) }
    refine ⟨?_, h2, h3, h4⟩
    rw [h1]
    simp [vec_push_back]

/-- C7: `translate` raises its exception exactly when the scope depth is greater than
0, returns a new driver exactly when the scope depth is 0, and in either case leaves
the original driver as it was (pending formulas, assumptions, head index and scope
depth included). -/
theorem translate_raises_iff {τ : Type} (tr : expr → expr) (dst_ext : τ)
    (s : inc_sat_solver σ) :
    ((translate tr dst_ext s).1.toOption.isNone = true ↔ 0 < get_scope_level s) ∧
    ((∃ r, (translate tr dst_ext s).1.toOption = some r) ↔ get_scope_level s = 0) ∧
    (translate tr dst_ext s).2.m_fmls = s.m_fmls ∧
    (translate tr dst_ext s).2.m_asmsf = s.m_asmsf ∧
    (translate tr dst_ext s).2.m_fmls_head = s.m_fmls_head ∧
    get_scope_level (translate tr dst_ext s).2 = get_scope_level s := by
  unfold translate get_scope_level
  by_cases h : 0 < s.m_num_scopes
  · have h0 : s.m_num_scopes ≠ 0 := by omega
    simp [h, h0, Except.toOption]
  · have h0 : s.m_num_scopes = 0 := by omega
    simp [h0, Except.toOption]

/-- C8: at scope depth 0 `translate` returns a driver with as many assertions and
assumptions as the original, whose i-th assertion and i-th assumption are the
translations of the original ones, in the same order, and whose scope level and head
index are 0. -/
theorem translate_spec {τ : Type} (tr : expr → expr) (dst_ext : τ) (s : inc_sat_solver σ)
    (h : get_scope_level s = 0) :
    ∃ r, (translate tr dst_ext s).1.toOption = some r ∧
      get_num_assertions r = get_num_assertions s ∧
      get_num_assumptions r = get_num_assumptions s ∧
      (∀ i, get_assertion r i = (get_assertion s i).map tr) ∧
      (∀ i, get_assumption r i = (get_assumption s i).map tr) ∧
      get_scope_level r = 0 ∧ r.m_fmls_head = 0 := by
  have h0 : ¬ 0 < s.m_num_scopes := by
    simp only [get_scope_level] at h
    omega
  obtain ⟨a1, a2, a3, a4⟩ := translate_fmls_loop tr s.m_fmls (inc_sat_solver.mk_fresh dst_ext)
  obtain ⟨b1, b2, b3, b4⟩ := translate_asmsf_loop tr s.m_asmsf
    (translate_fmls tr s.m_fmls (inc_sat_solver.mk_fresh dst_ext))
  refine ⟨translate_asmsf tr s.m_asmsf (translate_fmls tr s.m_fmls (inc_sat_solver.mk_fresh dst_ext)),
    ?_, ?_, ?_, ?_, ?_, ?_, ?_⟩
  · simp only [translate, h0, if_false, Except.toOption]
  · simp only [get_num_assertions]
    rw [b2, a1]
    simp [inc_sat_solver.mk_fresh]
  · simp only [get_num_assumptions]
    rw [b1, a2]
    simp [inc_sat_solver.mk_fresh]
  · intro i
    simp only [get_assertion]
    rw [b2, a1]
    simp [inc_sat_solver.mk_fresh]
  · intro i
    simp only [get_assumption]
    rw [b1, a2]
    simp [inc_sat_solver.mk_fresh]
  · simp only [get_scope_level]
    rw [b3, a3]
    rfl
  · rw [b4, a4]
    rfl

theorem translate_spec_witness :
    get_scope_level base_two = 0 ∧
    (translate shift_consts (toy.init none) base_two).1.toOption.map (fun r => (r.m_fmls, r.m_asmsf))
      = some ([expr.implies (expr.const 10) (expr.const 11), expr.const 12], [expr.const 10]) ∧
    ∃ r, (translate shift_consts (toy.init none) base_two).1.toOption = some r ∧
      get_num_assertions r = get_num_assertions base_two ∧
      get_num_assumptions r = get_num_assumptions base_two ∧
      (∀ i, get_assertion r i = (get_assertion base_two i).map shift_consts) ∧
      (∀ i, get_assumption r i = (get_assumption base_two i).map shift_consts) ∧
      get_scope_level r = 0 ∧ r.m_fmls_head = 0 :=
  ⟨by decide, by decide, translate_spec shift_consts (toy.init none) base_two (by decide)⟩

/-! ## The pending formulas and the trail across a session -/

theorem internalize_goal_view (E : externals σ) (g : goal) (d : dep2asm_t)
    (s : inc_sat_solver σ) : pending_view (internalize_goal E g d s).2.2 = pending_view s := by
  obtain ⟨h1, h2, h3, h4, h5, h6⟩ := internalize_goal_trail E g d s
  have h7 := (internalize_goal_buffers E g d s).2.2.2.2.2
  simp only [pending_view, h1, h2, h3, h4, h5, h6, h7]

/-- Whatever its verdict, `internalize_formulas` leaves the pending formulas and the
trail alone and moves the head to the end of the pending formulas. -/
theorem internalize_formulas_view (E : externals σ) (s : inc_sat_solver σ) :
    pending_view (internalize_formulas E s).2 =
      (s.m_fmls, s.m_asmsf, s.m_fmls_lim, s.m_asms_lim, s.m_fmls_head_lim, s.m_num_scopes,
        max s.m_fmls_head s.m_fmls.length) := by
  unfold internalize_formulas
  split
  · rename_i he
    simp [pending_view, he]
  · rw [internalize_goal_view]
    simp only [pending_view, assert_pending_head, List.length_drop]
    congr 6
    omega

theorem extract_assumptions_view (asms : List expr) (d : dep2asm_t) (s : inc_sat_solver σ) :
    pending_view (extract_assumptions asms d s) = pending_view s := rfl

theorem internalize_assumptions_view (E : externals σ) (asms : List expr) (d : dep2asm_t)
    (s : inc_sat_solver σ) :
    pending_view (internalize_assumptions E asms d s).2.2 = pending_view s := by
  unfold internalize_assumptions
  split
  · rfl
  · simp only
    split
    · rw [extract_assumptions_view, internalize_goal_view]
    · rw [internalize_goal_view]

theorem extract_core_view (E : externals σ) (d : dep2asm_t) (s t : inc_sat_solver σ)
    (h : extract_core E d s = some t) : pending_view t = pending_view s := by
  unfold extract_core at h
  simp only at h
  split at h
  · cases h
    rfl
  · cases h

/-- Whatever the collaborators return and whatever its outcome, `check_sat` leaves the
pending formulas and the trail alone and moves the head to the end of the pending
formulas. -/
theorem check_sat_view (E : externals σ) (asms : List expr) (w : Option (List weight))
    (mw : weight) (s : inc_sat_solver σ) :
    pending_view (check_sat E asms w mw s).2 =
      (s.m_fmls, s.m_asmsf, s.m_fmls_lim, s.m_asms_lim, s.m_fmls_head_lim, s.m_num_scopes,
        max s.m_fmls_head s.m_fmls.length) := by
  have h0 : ∀ u : inc_sat_solver σ, pending_view u = pending_view s →
      pending_view (internalize_formulas E u).2 =
        (s.m_fmls, s.m_asmsf, s.m_fmls_lim, s.m_asms_lim, s.m_fmls_head_lim, s.m_num_scopes,
          max s.m_fmls_head s.m_fmls.length) := fun u hu => by
    rw [internalize_formulas_view]
    simp only [pending_view, Prod.mk.injEq] at hu
    obtain ⟨e1, e2, e3, e4, e5, e6, e7⟩ := hu
    rw [e1, e2, e3, e4, e5, e6, e7]
  have h1 : ∀ u : inc_sat_solver σ, pending_view u = pending_view s →
      pending_view (internalize_assumptions E asms [] (internalize_formulas E u).2).2.2 =
        (s.m_fmls, s.m_asmsf, s.m_fmls_lim, s.m_asms_lim, s.m_fmls_head_lim, s.m_num_scopes,
          max s.m_fmls_head s.m_fmls.length) :=
    fun u hu => by rw [internalize_assumptions_view, h0 u hu]
  have h2 : ∀ (u : inc_sat_solver σ) (e : σ), pending_view { u with m_ext := e } = pending_view u :=
    fun _ _ => rfl
  unfold check_sat
  simp only
  split
  · apply h0
    cases w <;> rfl
  · split
    · apply h1
      cases w <;> rfl
    · split
      · split
        · split <;> (simp only; rw [h2]; apply h1; cases w <;> rfl)
        · simp only
          rw [h2]
          apply h1
          cases w <;> rfl
      · split
        · split
          · rename_i t ht
            rw [extract_core_view E _ _ t ht, h2]
            apply h1
            cases w <;> rfl
          · simp only
            rw [h2]
            apply h1
            cases w <;> rfl
        · simp only
          rw [h2]
          apply h1
          cases w <;> rfl
      · simp only
        rw [h2]
        apply h1
        cases w <;> rfl

theorem vec_back_split {α : Type} (l : List α) (x : α) (h : vec_back l = some x) :
    l = vec_pop_back l ++ [x] := by
  unfold vec_back at h
  unfold vec_pop_back
  have hne : l ≠ [] := by
    intro he
    simp [he] at h
  rw [List.getLast?_eq_getLast l hne] at h
  cases h
  exact (List.dropLast_append_getLast hne).symm

theorem vec_back_of_length {α : Type} (l : List α) (h : 0 < l.length) :
    ∃ x, vec_back l = some x := by
  unfold vec_back
  have hne : l ≠ [] := List.length_pos.mp h
  exact ⟨l.getLast hne, List.getLast?_eq_getLast l hne⟩

/-- One round of the restore loop keeps the shape of the stacks. -/
theorem pop_round_inv (s : inc_sat_solver σ) (hs : stacks_inv s) (x al : Nat)
    (hx : vec_back s.m_fmls_lim = some x) :
    stacks_inv { s with
      m_fmls_head := x
      m_fmls := vec_resize s.m_fmls x
      m_fmls_lim := vec_pop_back s.m_fmls_lim
      m_fmls_head_lim := vec_pop_back s.m_fmls_head_lim
      m_asmsf := vec_resize s.m_asmsf al
      m_asms_lim := vec_pop_back s.m_asms_lim } := by
  obtain ⟨_, h2, h3, h4, h5⟩ := hs
  have hsplit := vec_back_split _ _ hx
  have hxl : x ≤ s.m_fmls.length := h5 x (by rw [hsplit]; simp)
  have hlen : (vec_resize s.m_fmls x).length = x := by
    simp only [vec_resize, List.length_take]
    omega
  rw [hsplit, List.pairwise_append] at h4
  refine ⟨by simp only [hlen]; exact Nat.le_refl _, by simp only [h2], ?_, h4.1, ?_⟩
  · simp only [vec_pop_back, List.length_dropLast, h3]
  · intro y hy
    simp only [hlen]
    exact h4.2.2 y hy x (by simp)

theorem pop_loop_inv (n : Nat) (s : inc_sat_solver σ) (hs : stacks_inv s)
    (hn : n ≤ s.m_fmls_lim.length) :
    ∃ t, pop_loop n s = some t ∧ stacks_inv t ∧
      t.m_fmls_lim.length = s.m_fmls_lim.length - n ∧ t.m_num_scopes = s.m_num_scopes := by
  induction n generalizing s with
  | zero => exact ⟨s, rfl, hs, by simp, rfl⟩
  | succ n ih =>
    obtain ⟨x, hx⟩ := vec_back_of_length s.m_fmls_lim (by omega)
    obtain ⟨al, hal⟩ := vec_back_of_length s.m_asms_lim (by rw [hs.2.2.1]; omega)
    have hh : vec_back s.m_fmls_head_lim = some x := by rw [hs.2.1]; exact hx
    have hround := pop_round_inv s hs x al hx
    obtain ⟨t, h1, h2, h3, h4⟩ := ih _ hround (by
      simp only [vec_pop_back, List.length_dropLast]
      omega)
    refine ⟨t, ?_, h2, ?_, h4⟩
    · simp only [pop_loop, hh, hx, hal]
      exact h1
    · rw [h3]
      simp only [vec_pop_back, List.length_dropLast]
      omega

theorem unsigned_sub_self (d : Nat) : unsigned_sub d d = 0 := by
  unfold unsigned_sub
  rw [Nat.add_sub_cancel_left, Nat.mod_self]

/-- On a driver with the trail invariant, `pop(n)` for `n` at most the scope depth
finds every checkpoint it reads and keeps the invariant. -/
theorem pop_inv (E : externals σ) (n : Nat) (s : inc_sat_solver σ) (hs : trail_inv s)
    (hn : n ≤ s.m_num_scopes) : ∃ t, pop E n s = some t ∧ trail_inv t := by
  obtain ⟨h1, h2⟩ := hs
  have hn1 : (if n < s.m_num_scopes then s.m_num_scopes else n) = s.m_num_scopes := by
    split <;> omega
  unfold pop
  simp only [hn1]
  obtain ⟨t, p1, p2, p3, p4⟩ := pop_loop_inv s.m_num_scopes
    { s with m_ext := E.user_pop s.m_num_scopes (E.map_pop s.m_num_scopes (E.bb_pop s.m_num_scopes s.m_ext)),
             m_num_scopes := unsigned_sub s.m_num_scopes s.m_num_scopes } h1 (by simp only [h2]; exact Nat.le_refl _)
  refine ⟨t, p1, p2, ?_⟩
  rw [p3, p4]
  simp only [h2, unsigned_sub_self]
  omega

theorem assert_expr_inv (t : expr) (s : inc_sat_solver σ) (hs : trail_inv s) :
    trail_inv (assert_expr t s) := by
  obtain ⟨⟨h1, h2, h3, h4, h5⟩, h6⟩ := hs
  refine ⟨⟨?_, h2, h3, h4, ?_⟩, h6⟩
  · simp only [assert_expr, vec_push_back, List.length_append, List.length_singleton]
    omega
  · intro x hx
    have := h5 x hx
    simp only [assert_expr, vec_push_back, List.length_append, List.length_singleton]
    omega

theorem assert_expr_labelled_inv (t : expr) (a : Option expr) (s : inc_sat_solver σ)
    (hs : trail_inv s) : trail_inv (assert_expr_labelled t a s) := by
  cases a with
  | none => exact assert_expr_inv t s hs
  | some a =>
    apply assert_expr_inv
    exact hs

theorem push_inv (E : externals σ) (s : inc_sat_solver σ) (hs : trail_inv s)
    (hroom : s.m_fmls_lim.length + 1 < 2 ^ 32) : trail_inv (push E s) := by
  obtain ⟨⟨h1, h2, h3, h4, h5⟩, h6⟩ := hs
  obtain ⟨p1, p2, p3, p4, p5, p6, p7⟩ := push_fields E s h1
  refine ⟨⟨?_, ?_, ?_, ?_, ?_⟩, ?_⟩
  · rw [p7, p2]
  · rw [p6, p4, h2]
  · rw [p5, p4]
    simp [h3]
  · rw [p4, List.pairwise_append]
    refine ⟨h4, List.pairwise_singleton _ _, ?_⟩
    intro x hx y hy
    simp only [List.mem_singleton] at hy
    rw [hy]
    exact h5 x hx
  · intro x hx
    rw [p4] at hx
    rw [p2]
    rcases List.mem_append.mp hx with hx | hx
    · exact h5 x hx
    · simp only [List.mem_singleton] at hx
      omega
  · rw [p4, p1, ← h6]
    simp only [List.length_append, List.length_singleton, unsigned_inc]
    exact (Nat.mod_eq_of_lt hroom).symm

theorem check_sat_inv (E : externals σ) (asms : List expr) (w : Option (List weight))
    (mw : weight) (s : inc_sat_solver σ) (hs : trail_inv s) :
    trail_inv (check_sat E asms w mw s).2 := by
  obtain ⟨⟨h1, h2, h3, h4, h5⟩, h6⟩ := hs
  have hv := check_sat_view E asms w mw s
  simp only [pending_view, Prod.mk.injEq] at hv
  obtain ⟨e1, _, e3, e4, e5, e6, e7⟩ := hv
  refine ⟨⟨?_, ?_, ?_, ?_, ?_⟩, ?_⟩
  · rw [e7, e1]
    omega
  · rw [e5, e3, h2]
  · rw [e4, e3, h3]
  · rw [e3]
    exact h4
  · rw [e3, e1]
    exact h5
  · rw [e3, e6, h6]

/-- Every reachable driver state has the trail invariant. -/
theorem reachable_trail_inv (E : externals σ) (ext : σ) (s : inc_sat_solver σ)
    (h : reachable E ext s) : trail_inv s := by
  induction h with
  | by_constructor =>
    exact ⟨⟨Nat.le_refl _, rfl, rfl, List.Pairwise.nil, fun x hx => by cases hx⟩, rfl⟩
  | by_assert t _ ih => exact assert_expr_inv t _ ih
  | by_assert_labelled t a _ ih => exact assert_expr_labelled_inv t a _ ih
  | by_push _ hroom ih => exact push_inv E _ ih hroom
  | by_pop n _ hn hp ih =>
    obtain ⟨t, ht, hi⟩ := pop_inv E n _ ih hn
    rw [ht] at hp
    cases hp
    exact hi
  | by_check_sat asms w mw _ ih => exact check_sat_inv E asms w mw _ ih

/-- In a reachable state the scope counter is the size of the trail vectors, so at
every push of a session the counter is not the largest `unsigned`. -/
theorem session_push_counter (E : externals σ) (ext : σ) (s : inc_sat_solver σ)
    (h : reachable E ext s) (hroom : s.m_fmls_lim.length + 1 < 2 ^ 32) :
    get_scope_level s = s.m_fmls_lim.length ∧ get_scope_level s + 1 < 2 ^ 32 := by
  have h6 := (reachable_trail_inv E ext s h).2
  simp only [get_scope_level]
  omega

/-- At the largest `unsigned` the increment of the scope counter wraps to 0. -/
theorem push_counter_wraps (E : externals σ) (s : inc_sat_solver σ)
    (h : s.m_num_scopes = 4294967295) : get_scope_level (push E s) = 0 := by
  have h6 := (internalize_formulas_trail E s).2.2.2.2.2
  simp [push, get_scope_level, h6, h, unsigned_inc]

/-- C11: in every state reachable from a freshly constructed driver by assertions,
labelled assertions, pushes, `check_sat` calls and `pop(n)` with `n` at most the scope
depth, whatever the collaborators return, the head index is at most the number of
pending formulas. -/
theorem head_within_pending (E : externals σ) (ext : σ) (s : inc_sat_solver σ)
    (h : reachable E ext s) : s.m_fmls_head ≤ get_num_assertions s :=
  (reachable_trail_inv E ext s h).1.1

theorem head_within_pending_witness :
    reachable toy.ops (toy.init none) after_first_check ∧
    after_first_check.m_fmls_head = 2 ∧ get_num_assertions after_first_check = 2 ∧
    after_first_check.m_fmls_head ≤ get_num_assertions after_first_check :=
  ⟨reachable.by_check_sat [lbl_a] none 0
      (reachable.by_assert _ (reachable.by_assert_labelled _ _ reachable.by_constructor)),
   by decide, by decide,
   head_within_pending toy.ops (toy.init none) after_first_check
     (reachable.by_check_sat [lbl_a] none 0
       (reachable.by_assert _ (reachable.by_assert_labelled _ _ reachable.by_constructor)))⟩

/-- C15: in every state reachable from a freshly constructed driver by assertions,
labelled assertions, pushes, `check_sat` calls and `pop(n)` with `n` at most the scope
depth, the three trail stacks have the length that `get_scope_level` returns, and
`pop(n)` for every `n` at most the scope depth finds all the checkpoints it reads: it
never takes one from an empty stack. -/
theorem trail_stacks_track_depth (E : externals σ) (ext : σ) (s : inc_sat_solver σ)
    (h : reachable E ext s) :
    s.m_fmls_lim.length = get_scope_level s ∧
    s.m_asms_lim.length = get_scope_level s ∧
    s.m_fmls_head_lim.length = get_scope_level s ∧
    ∀ n, n ≤ get_scope_level s → ∃ t, pop E n s = some t := by
  have hi := reachable_trail_inv E ext s h
  obtain ⟨⟨_, h2, h3, _, _⟩, h6⟩ := hi
  refine ⟨h6, by rw [h3]; exact h6, by rw [h2]; exact h6, ?_⟩
  intro n hn
  obtain ⟨t, ht, _⟩ := pop_inv E n s (reachable_trail_inv E ext s h) hn
  exact ⟨t, ht⟩

theorem trail_stacks_track_depth_witness :
    reachable toy.ops (toy.init none) depth_one ∧
    get_scope_level depth_one = 1 ∧
    (pop toy.ops 1 depth_one).isSome = true ∧
    depth_one.m_fmls_lim.length = get_scope_level depth_one ∧
    depth_one.m_asms_lim.length = get_scope_level depth_one ∧
    depth_one.m_fmls_head_lim.length = get_scope_level depth_one ∧
    ∀ n, n ≤ get_scope_level depth_one → ∃ t, pop toy.ops n depth_one = some t :=
  ⟨reachable.by_assert _
     (reachable.by_push (reachable.by_assert _ reachable.by_constructor) (by decide)),
   by decide, by decide,
   trail_stacks_track_depth toy.ops (toy.init none) depth_one
     (reachable.by_assert _
       (reachable.by_push (reachable.by_assert _ reachable.by_constructor) (by decide)))⟩

/-! ## Projecting the assumptions -/

theorem take_set_same {α : Type} (l : List α) (j : Nat) (a : α) :
    (l.set j a).take j = l.take j :=
  List.ext_getElem? fun i => by
    rw [List.getElem?_take, List.getElem?_take]
    split
    · rw [List.getElem?_set_ne (by omega)]
    · rfl

/-- The loop of `extract_assumptions` from position `i` with `j` literals emitted: the
literals of the resolved assumptions are appended in order, the weights buffer keeps
its length, and its first entries are the weights emitted so far followed by the
weights of the assumptions resolved from `i` on. -/
theorem extract_assumptions_loop_spec (D : dep2asm_t) (w : List weight) (rest : List expr) :
    ∀ (i j : Nat) (la : List literal) (lw : List weight),
      lw.length = w.length → i + rest.length = w.length → j ≤ i → lw.drop i = w.drop i →
      (extract_assumptions_loop D rest i j la lw).1 = la ++ rest.filterMap D.find ∧
      (extract_assumptions_loop D rest i j la lw).2.length = w.length ∧
      (extract_assumptions_loop D rest i j la lw).2.take (j + (rest.filterMap D.find).length)
        = lw.take j ++
          ((rest.zip (w.drop i)).filter (fun p => (D.find p.1).isSome)).map Prod.snd := by
  induction rest with
  | nil =>
    intro i j la lw hlen _ _ _
    simp [extract_assumptions_loop, hlen]
  | cons a rest ih =>
    intro i j la lw hlen hi hji hdrop
    have hiw : i < w.length := by
      simp only [List.length_cons] at hi
      omega
    have hil : i < lw.length := by omega
    have hw : w.drop i = w[i] :: w.drop (i + 1) := List.drop_eq_getElem_cons hiw
    have hl : lw.drop i = lw[i] :: lw.drop (i + 1) := List.drop_eq_getElem_cons hil
    have heq : lw[i] = w[i] ∧ lw.drop (i + 1) = w.drop (i + 1) := by
      have hc : lw[i] :: lw.drop (i + 1) = w[i] :: w.drop (i + 1) := by
        rw [← hw, ← hl]
        exact hdrop
      exact ⟨(List.cons.inj hc).1, (List.cons.inj hc).2⟩
    cases hfind : D.find a with
    | none =>
      obtain ⟨r1, r2, r3⟩ := ih (i + 1) j la lw hlen
        (by simp only [List.length_cons] at hi; omega) (by omega) heq.2
      simp only [extract_assumptions_loop, hfind]
      refine ⟨?_, r2, ?_⟩
      · rw [r1]
        simp [List.filterMap_cons, hfind]
      · rw [hw]
        simp only [List.filterMap_cons, hfind, List.zip_cons_cons, List.filter_cons,
          Option.isSome_none, Bool.false_eq_true, if_false]
        exact r3
    | some lit =>
      have hne : lw ≠ [] := by
        intro he
        rw [he] at hil
        simp at hil
      have hget : lw.get? i = some w[i] := by
        rw [List.get?_eq_getElem?, List.getElem?_eq_getElem hil, heq.1]
      have key : ∀ lw1 : List weight, lw1.length = w.length →
          lw1.drop (i + 1) = w.drop (i + 1) → lw1.take (j + 1) = lw.take j ++ [w[i]] →
          (extract_assumptions_loop D rest (i + 1) (j + 1) (vec_push_back la lit) lw1).1
            = la ++ (a :: rest).filterMap D.find ∧
          (extract_assumptions_loop D rest (i + 1) (j + 1) (vec_push_back la lit) lw1).2.length
            = w.length ∧
          (extract_assumptions_loop D rest (i + 1) (j + 1) (vec_push_back la lit) lw1).2.take
              (j + ((a :: rest).filterMap D.find).length)
            = lw.take j ++
              (((a :: rest).zip (w.drop i)).filter (fun p => (D.find p.1).isSome)).map Prod.snd := by
        intro lw1 k1 k2 k3
        obtain ⟨r1, r2, r3⟩ := ih (i + 1) (j + 1) (vec_push_back la lit) lw1 k1
          (by simp only [List.length_cons] at hi; omega) (by omega) k2
        refine ⟨?_, r2, ?_⟩
        · rw [r1]
          simp [List.filterMap_cons, hfind, vec_push_back]
        · rw [hw]
          simp only [List.filterMap_cons, hfind, List.zip_cons_cons, List.filter_cons,
            Option.isSome_some, if_true, List.map_cons, List.length_cons]
          rw [show j + ((List.filterMap D.find rest).length + 1)
                = j + 1 + (List.filterMap D.find rest).length by omega, r3, k3]
          simp
      simp only [extract_assumptions_loop, hfind]
      by_cases hij : i = j
      · subst hij
        simp only [ne_eq, not_true_eq_false, false_and, if_false]
        apply key lw hlen heq.2
        rw [List.take_succ, List.getElem?_eq_getElem hil, heq.1]
        rfl
      · have hjl : j < lw.length := by omega
        simp only [ne_eq, hij, not_false_eq_true, hne, and_self, if_true, hget]
        apply key (lw.set j w[i]) (by rw [List.length_set]; exact hlen)
        · rw [List.drop_set_of_lt _ _ (by omega)]
          exact heq.2
        · rw [List.take_succ, take_set_same, List.getElem?_set_self hjl]
          rfl

theorem resolved_from_length (D : dep2asm_t) (rest : List expr) (i : Nat) :
    (resolved_from D rest i).length = (rest.filterMap D.find).length := by
  induction rest generalizing i with
  | nil => rfl
  | cons a rest ih =>
    cases hfind : D.find a with
    | none => simp [resolved_from, hfind, List.filterMap_cons, ih]
    | some lit => simp [resolved_from, hfind, List.filterMap_cons, ih]

/-- The `k`-th resolved index points at the assumption whose literal is the `k`-th
projected literal and whose weight is the `k`-th of the weights of the resolved
assumptions. -/
theorem resolved_from_spec (D : dep2asm_t) (rest : List expr) :
    ∀ (i k idx : Nat) (v : List weight), v.length = rest.length →
      (resolved_from D rest i)[k]? = some idx →
      i ≤ idx ∧ (rest.filterMap D.find)[k]? = (rest[idx - i]?).bind D.find ∧
      (((rest.zip v).filter (fun p => (D.find p.1).isSome)).map Prod.snd)[k]? = v[idx - i]? := by
  induction rest with
  | nil =>
    intro i k idx v _ h
    simp [resolved_from] at h
  | cons a rest ih =>
    intro i k idx v hv h
    cases v with
    | nil => simp at hv
    | cons v0 v =>
      have hv1 : v.length = rest.length := by simpa using hv
      cases hfind : D.find a with
      | none =>
        simp only [resolved_from, hfind, Option.isSome_none, Bool.false_eq_true, if_false] at h
        obtain ⟨r1, r2, r3⟩ := ih (i + 1) k idx v hv1 h
        have hsub : idx - i = (idx - (i + 1)) + 1 := by omega
        refine ⟨by omega, ?_, ?_⟩
        · rw [hsub]
          simp only [List.filterMap_cons, hfind, List.getElem?_cons_succ]
          exact r2
        · rw [hsub]
          simp only [List.zip_cons_cons, List.filter_cons, hfind, Option.isSome_none,
            Bool.false_eq_true, if_false, List.getElem?_cons_succ]
          exact r3
      | some lit =>
        simp only [resolved_from, hfind, Option.isSome_some, if_true] at h
        cases k with
        | zero =>
          simp only [List.getElem?_cons_zero, Option.some.injEq] at h
          subst h
          simp [List.filterMap_cons, hfind]
        | succ k =>
          simp only [List.getElem?_cons_succ] at h
          obtain ⟨r1, r2, r3⟩ := ih (i + 1) k idx v hv1 h
          have hsub : idx - i = (idx - (i + 1)) + 1 := by omega
          refine ⟨by omega, ?_, ?_⟩
          · rw [hsub]
            simp only [List.filterMap_cons, hfind, List.getElem?_cons_succ]
            exact r2
          · rw [hsub]
            simp only [List.zip_cons_cons, List.filter_cons, hfind, Option.isSome_some,
              if_true, List.map_cons, List.getElem?_cons_succ]
            exact r3

/-- C13: for every assumption list, every weights buffer of the same length and every
dependency map, `extract_assumptions` leaves in the assumption buffer the literals
`D(asms[i])` of the assumptions that `D` resolves, in increasing `i`, and the `k`-th
entry of the weights buffer is then the weight `w[i_k]` of the `k`-th resolved
assumption, for every position `k` of the assumption buffer. -/
theorem extract_assumptions_spec (asms : List expr) (D : dep2asm_t) (s : inc_sat_solver σ)
    (hw : s.m_weights.length = asms.length) :
    (extract_assumptions asms D s).m_asms = asms.filterMap D.find ∧
    (extract_assumptions asms D s).m_asms.length = (resolved_indices D asms).length ∧
    (extract_assumptions asms D s).m_weights.take (extract_assumptions asms D s).m_asms.length
      = ((asms.zip s.m_weights).filter (fun p => (D.find p.1).isSome)).map Prod.snd ∧
    ∀ k i : Nat, (resolved_indices D asms)[k]? = some i →
      (extract_assumptions asms D s).m_asms[k]? = (asms[i]?).bind D.find ∧
      (extract_assumptions asms D s).m_weights[k]? = s.m_weights[i]? := by
  obtain ⟨r1, _, r3⟩ := extract_assumptions_loop_spec D s.m_weights asms 0 0 [] s.m_weights rfl
    (by omega) (Nat.le_refl _) rfl
  simp only [List.nil_append, Nat.zero_add, List.take_zero, List.drop_zero] at r1 r3
  have h1 : (extract_assumptions asms D s).m_asms = asms.filterMap D.find := r1
  have h3 : (extract_assumptions asms D s).m_weights.take (asms.filterMap D.find).length
      = ((asms.zip s.m_weights).filter (fun p => (D.find p.1).isSome)).map Prod.snd := r3
  refine ⟨h1, ?_, ?_, ?_⟩
  · rw [h1, resolved_indices, resolved_from_length]
  · rw [h1]
    exact h3
  · intro k i hk
    obtain ⟨_, b2, b3⟩ := resolved_from_spec D asms 0 k i s.m_weights hw hk
    simp only [Nat.sub_zero] at b2 b3
    have hklt : k < (asms.filterMap D.find).length := by
      rw [← resolved_from_length D asms 0]
      by_contra hge
      have hnone : (resolved_from D asms 0)[k]? = none := List.getElem?_eq_none (by omega)
      simp only [resolved_indices] at hk
      rw [hnone] at hk
      cases hk
    refine ⟨by rw [h1]; exact b2, ?_⟩
    rw [← b3, ← h3, List.getElem?_take]
    simp [hklt]

theorem extract_assumptions_spec_witness :
    ({ fresh with m_weights := mixed_weights } : inc_sat_solver toy).m_weights.length
      = mixed_asms.length ∧
    resolved_indices mixed_deps mixed_asms = [1, 2] ∧
    (extract_assumptions mixed_asms mixed_deps { fresh with m_weights := mixed_weights }).m_asms
      = [⟨0⟩, ⟨4⟩] ∧
    (extract_assumptions mixed_asms mixed_deps { fresh with m_weights := mixed_weights }).m_weights
      = [7, 9, 9] ∧
    (check_sat toy.ops mixed_asms (some mixed_weights) 0 fresh).2.m_weights = [7, 9, 9] ∧
    (extract_assumptions mixed_asms mixed_deps { fresh with m_weights := mixed_weights }).m_asms
      = mixed_asms.filterMap mixed_deps.find :=
  ⟨by decide, by decide, by decide, by decide, by decide,
   (extract_assumptions_spec mixed_asms mixed_deps { fresh with m_weights := mixed_weights }
     (by decide)).1⟩

theorem extract_assumptions_loop_asms (D : dep2asm_t) (rest : List expr) :
    ∀ (i j : Nat) (la : List literal) (lw : List weight),
      (extract_assumptions_loop D rest i j la lw).1 = la ++ rest.filterMap D.find := by
  induction rest with
  | nil =>
    intro i j la lw
    simp [extract_assumptions_loop]
  | cons a rest ih =>
    intro i j la lw
    cases hfind : D.find a with
    | none => simp [extract_assumptions_loop, hfind, ih, List.filterMap_cons]
    | some lit => simp [extract_assumptions_loop, hfind, ih, List.filterMap_cons, vec_push_back]

/-- Without repetitions the buffer has the size of the map: when no assumption occurs
twice and every key of the dependency map is an assumption, `extract_assumptions`
leaves as many literals as the map has keys. -/
theorem extract_assumptions_size_nodup (asms : List expr) (D : dep2asm_t)
    (s : inc_sat_solver σ) (ha : asms.Nodup) (hD : (D.map Prod.fst).Nodup)
    (hk : ∀ k ∈ D.map Prod.fst, k ∈ asms) :
    (extract_assumptions asms D s).m_asms.length = D.length := by
  have h1 : (extract_assumptions asms D s).m_asms = asms.filterMap D.find := by
    simp only [extract_assumptions]
    rw [extract_assumptions_loop_asms]
    simp
  have h2 : (asms.filterMap D.find).length
      = (asms.filter (fun a => (D.find a).isSome)).length := by
    rw [List.length_filterMap_eq_countP, List.countP_eq_length_filter]
  have h3 : (asms.filter (fun a => (D.find a).isSome)).Perm (D.map Prod.fst) := by
    refine (List.perm_ext_iff_of_nodup (ha.filter _) hD).mpr ?_
    intro a
    simp only [List.mem_filter, dep2asm_t.find, List.lookup_isSome_iff, List.mem_map]
    constructor
    · rintro ⟨_, p, hp, hpa⟩
      exact ⟨p, hp, (by simpa using hpa : a = p.1).symm⟩
    · rintro ⟨p, hp, hpa⟩
      exact ⟨hk a (List.mem_map.mpr ⟨p, hp, hpa⟩), p, hp, by simpa using hpa.symm⟩
  rw [h1, h2, h3.length_eq, List.length_map]

/-- C12, evaluated on the driver: the assumption list `[a, a]` and the dependency map
with the single key `a`, which is what the reference `goal2sat` builds for this list:
`extract_assumptions` pushes the literal of `a` once per occurrence, so the assumption
buffer has 2 entries and the map 1 key; the `SASSERT` that closes the method fails. -/
theorem repeated_assumption_breaks_buffer_size :
    (∀ k ∈ one_label.map Prod.fst, k ∈ [lbl_a, lbl_a]) ∧
    (extract_assumptions [lbl_a, lbl_a] one_label fresh).m_asms = [⟨0⟩, ⟨0⟩] ∧
    (extract_assumptions [lbl_a, lbl_a] one_label fresh).m_asms.length = 2 ∧
    one_label.length = 1 ∧
    (internalize_assumptions toy.ops [lbl_a, lbl_a] [] fresh).2.1 = one_label ∧
    (check_sat toy.ops [lbl_a, lbl_a] none 0 fresh).2.m_asms = [⟨0⟩, ⟨0⟩] := by
  decide

/-! ## A failed internalization -/

/-- C14, evaluated on the driver: with `x` and `¬x` pending and a pipeline that raises
on its first run, `internalize_formulas` (and `check_sat([])`) answers unknown and the
head index has moved from 0 to 2, the number of pending formulas; the next
`check_sat([])` finds nothing pending, hands no clause to the SAT core and answers
true. -/
theorem failed_internalize_advances_head :
    contradiction_pending.m_fmls_head = 0 ∧
    get_num_assertions contradiction_pending = 2 ∧
    (internalize_formulas raising_ops contradiction_pending).1 = lbool.l_undef ∧
    (internalize_formulas raising_ops contradiction_pending).2.m_fmls_head = 2 ∧
    (check_sat raising_ops [] none 0 contradiction_pending).1.toOption = some lbool.l_undef ∧
    after_raised_check.m_fmls_head = 2 ∧
    (check_sat raising_ops [] none 0 after_raised_check).1.toOption = some lbool.l_true ∧
    (check_sat raising_ops [] none 0 after_raised_check).2.m_ext.1.clauses = [] := by
  decide

end IncSat
